import Mathlib

/-!
Verification of `immutable-set` (src/set.js).

The program manipulates JavaScript values.  We embed them shallowly with an
explicit heap: a JS value is either a primitive or a reference (address) into
a heap of container cells; the heap is a list of cells and an address is a
position in that list, so allocation appends a cell and an address is fresh
exactly when it is at least the length of the heap at hand.  This makes the
library's central promises - no mutation of existing cells, structural
sharing by reference, fresh allocation along the path - directly statable.
-/

namespace ImmutableSet

/-- JavaScript primitive values (the non-container leaves of the data model). -/
inductive Prim where
  | undef
  | null
  | num (n : Int)
  | str (s : String)
  | bool (b : Bool)
deriving DecidableEq, Repr

/-- A JS value: a primitive, or a reference to a container cell in the heap. -/
inductive Ref where
  | prim (p : Prim)
  | addr (a : Nat)
deriving DecidableEq, Repr

/-- A container cell: an array of values or an object with string fields. -/
inductive Cell where
  | arrC (elems : List Ref)
  | objC (fields : List (String × Ref))
deriving DecidableEq, Repr

/-- The heap: cell at address `a` is the list entry at position `a`.
Allocation appends, so exactly the addresses `< h.length` are live. -/
abbrev Heap := List Cell

/-- Allocate a cell, returning its (fresh) address and the grown heap. -/
def alloc (h : Heap) (c : Cell) : Nat × Heap := (h.length, h ++ [c])

/-- Overwrite the cell at an existing address (models in-place mutation,
used by the code only on accumulators it has just allocated). -/
def writeCell (h : Heap) (a : Nat) (c : Cell) : Heap := h.set a c

/-- JavaScript truthiness of a value. -/
def truthy : Ref → Bool
  | .prim .undef => false
  | .prim .null => false
  | .prim (.num n) => n != 0
  | .prim (.str s) => s != ""
  | .prim (.bool b) => b
  | .addr _ => true

/-- `true` exactly on references to heap objects (JS `base && typeof base === 'object'`). -/
def isAddr : Ref → Bool
  | .addr _ => true
  | _ => false

/-- A path key: a string or a (non-negative) number, as in the data model. -/
inductive Key where
  | str (s : String)
  | num (n : Nat)
deriving DecidableEq, Repr

/-- A path segment: a single key, or a group of keys (fan-out update). -/
inductive Seg where
  | key (k : Key)
  | group (ks : List Key)
deriving DecidableEq, Repr

/-- JS `ToPropertyKey` of a key. -/
def keyName : Key → String
  | .str s => s
  | .num n => toString n

/-- JS `ToPropertyKey` of a segment used as a property name (`base[key]`):
an array of keys stringifies by joining with commas. -/
def segName : Seg → String
  | .key k => keyName k
  | .group ks => String.intercalate "," (ks.map keyName)

/-- Look a name up in an object's field list (`undefined` when absent). -/
def lookupField : List (String × Ref) → String → Ref
  | [], _ => .prim .undef
  | (k, v) :: t, name => if k = name then v else lookupField t name

/-- Set a field: replace in place when present, append when absent
(JS object-spread / computed-property-write semantics for key order). -/
def setField : List (String × Ref) → String → Ref → List (String × Ref)
  | [], name, v => [(name, v)]
  | (k, w) :: t, name, v => if k = name then (name, v) :: t else (k, w) :: setField t name v

/-- `\x7b...base, ...upd\x7d`: every field of `upd` written over `base`, in order. -/
def mergeFields (base upd : List (String × Ref)) : List (String × Ref) :=
  upd.foldl (fun acc kv => setField acc kv.1 kv.2) base

/-- The decimal value of a digit string; the empty string gives 0 (JS `Number("")`). -/
def digitsToNat (ds : List Char) : Nat :=
  ds.foldl (fun n c => n * 10 + (c.toNat - 48)) 0

/-- JS `Number(s)` restricted to the digit strings the code can meet:
`some` (decimal value) on all-digit strings (including `""` ↦ 0), `none` (NaN)
otherwise. -/
def jsNumOfStr (s : String) : Option Nat :=
  if s.data.all Char.isDigit then some (digitsToNat s.data) else none

/-- A property name that denotes an array index: a canonical decimal numeral. -/
def canonIdx (name : String) : Option Nat :=
  if !name.data.isEmpty && name.data.all Char.isDigit then
    let n := digitsToNat name.data
    if toString n = name then some n else none
  else none

/-- JS property read `r[name]` for receivers on which JS reads without
throwing: containers read their own entries, strings index and report
`length`, and other primitives read as `undefined` (boxing).  Reads whose
receiver may be `null` or `undefined` - in this program only the `values`
reads of `reduceWithObject` - go through the fallible `getPropE` below.
Members inherited from the prototype chain (e.g. `toString`) lie outside
the spec's data model of mappings with own string keys and read as
`undefined` here. -/
def getProp (h : Heap) (r : Ref) (name : String) : Ref :=
  match r with
  | .addr a =>
    match h[a]? with
    | some (.objC fs) => lookupField fs name
    | some (.arrC es) =>
      if name = "length" then .prim (.num es.length)
      else
        match canonIdx name with
        | some n => (es[n]?).getD (.prim .undef)
        | none => .prim .undef
    | none => .prim .undef
  | .prim (.str s) =>
    if name = "length" then .prim (.num s.length)
    else
      match canonIdx name with
      | some n =>
        match s.data[n]? with
        | some c => .prim (.str (String.mk [c]))
        | none => .prim .undef
      | none => .prim .undef
  | .prim _ => Ref.prim Prim.undef

/-- The failure a JS property read raises on a `null` or `undefined`
receiver.  The TypeError is thrown by the host, not by set.js, so the model
keeps only the receiver kind, not the host's message text. -/
def typeErr (p : Prim) : String :=
  match p with
  | .null => "TypeError: Cannot read properties of null"
  | _ => "TypeError: Cannot read properties of undefined"

/-- JS property read `r[name]` as the fallible operation it is: a read on
`null` or `undefined` throws a TypeError, any other receiver reads as
`getProp`. -/
def getPropE (h : Heap) (r : Ref) (name : String) : Except String Ref :=
  match r with
  | .prim .null => .error (typeErr .null)
  | .prim .undef => .error (typeErr .undef)
  | _ => .ok (getProp h r name)

/-- `true` on references to array cells (JS `Array.isArray`). -/
def isArrayRef (h : Heap) (r : Ref) : Bool :=
  match r with
  | .addr a =>
    match h[a]? with
    | some (.arrC _) => true
    | _ => false
  | _ => false

/-- The elements of the array cell a reference points to (`[]` otherwise). -/
def getElems (h : Heap) (r : Ref) : List Ref :=
  match r with
  | .addr a =>
    match h[a]? with
    | some (.arrC es) => es
    | _ => []
  | _ => []

/-- The fields of the object cell a reference points to (`[]` otherwise). -/
def getFields (h : Heap) (r : Ref) : List (String × Ref)  :=
  match r with
  | .addr a =>
    match h[a]? with
    | some (.objC fs) => fs
    | _ => []
  | _ => []

/-- Does an optional next segment satisfy JS `typeof nextKey === 'number'`? -/
def isNumSeg : Option Seg → Bool
  | some (.key (.num _)) => true
  | _ => false

/-- `nextBase(base, key, nextKey, withArrays)` from set.js:
`base[key] || (withArrays && typeof nextKey === 'number' ? [] : \x7b\x7d)`;
the empty container is a fresh allocation. -/
def nextBase (h : Heap) (base : Ref) (name : String) (nextKey : Option Seg)
    (withArrays : Bool) : Ref × Heap :=
  let v := getProp h base name
  if truthy v then (v, h)
  else if withArrays && isNumSeg nextKey then
    let (a, h') := alloc h (.arrC [])
    (.addr a, h')
  else
    let (a, h') := alloc h (.objC [])
    (.addr a, h')

/-- The one error message thrown by the code (reduceWithArray). -/
def shapeErr : String := "Can not use object values with array in path"

/-- JS `typeof key[0] === 'number'` for a key list. -/
def numFirst (ks : List Key) : Bool :=
  match ks.head? with
  | some (.num _) => true
  | _ => false

/-- The coercion test in `set`:
`(isArrayKeys && typeof key[0] === 'number') || (withArrays && typeof key === 'number')`. -/
def coerceArr (seg : Seg) (withArrays : Bool) : Bool :=
  match seg with
  | .group ks => numFirst ks
  | .key (.num _) => withArrays
  | .key (.str _) => false

/-- `let currentBase = base` coerced to a fresh empty container when `base`
is not an object (`!base || typeof base !== 'object'`). -/
def coerceBase (h : Heap) (base : Ref) (seg : Seg) (withArrays : Bool) : Ref × Heap :=
  if isAddr base then (base, h)
  else if coerceArr seg withArrays then
    let (a, h1) := alloc h (.arrC [])
    (.addr a, h1)
  else
    let (a, h1) := alloc h (.objC [])
    (.addr a, h1)

/-- `if (key < acc.length) acc[key] = newValue; else acc.push(newValue);`
from reduceWithArray, with JS number coercion of a string key.  A write
under a non-canonical digit string below the length (JS `acc["01"] = v`)
creates a non-index own property on the array, which the data model's
ordered sequences (dense, index-keyed) cannot carry; the model drops that
write, and no theorem relies on this branch. -/
def arrWrite (es : List Ref) (k : Key) (v : Ref) : List Ref :=
  match k with
  | .num n => if n < es.length then es.set n v else es ++ [v]
  | .str s =>
    match jsNumOfStr s with
    | some n =>
      if n < es.length then (if toString n = s then es.set n v else es)
      else es ++ [v]
    | none => es ++ [v]

/-- `[...currentBase.slice(0, key), v, ...currentBase.slice(key + 1)]`,
including JS coercions when `key` is a string (`key + 1` concatenates). -/
def jsSplice (es : List Ref) (k : Key) (v : Ref) : List Ref :=
  match k with
  | .num n => es.take n ++ v :: es.drop (n + 1)
  | .str s =>
    es.take ((jsNumOfStr s).getD 0) ++ v :: es.drop ((jsNumOfStr (s ++ "1")).getD 0)

/-- The reduce body of `reduceWithArray(setFunction)`: one iteration per
group key, mutating the array accumulator at address `accA`;
`setTail b p v` stands for `setFunction(b, path.slice(1), v, withArrays)`.
The read `values[index]` uses the total `getProp`: it runs only under the
`Array.isArray(values)` guard of `reduceWithArray`, so its receiver is
never `null` or `undefined`. -/
def reduceWithArrayGo (setTail : Heap → Ref → Ref → Except String Ref × Heap)
    (nextKey : Option Seg) (base vals : Ref) (withArrays : Bool) (accA : Nat) :
    List Key → Nat → Heap → Except String Unit × Heap
  | [], _, h => (.ok (), h)
  | k :: kt, idx, h =>
    let (nb, h1) := nextBase h base (keyName k) nextKey withArrays
    let vi := getProp h1 vals (toString idx)
    match setTail h1 nb vi with
    | (.error e, h2) => (.error e, h2)
    | (.ok nv, h2) =>
      let h3 := writeCell h2 accA (.arrC (arrWrite (getElems h2 (.addr accA)) k nv))
      reduceWithArrayGo setTail nextKey base vals withArrays accA kt (idx + 1) h3

/-- `reduceWithArray(setFunction)` applied to its seven arguments: throws
unless `values` is an array, then folds the keys into the accumulator
(allocated by the caller as `[...currentBase]`) and returns it. -/
def reduceWithArray (setTail : Heap → Ref → Ref → Except String Ref × Heap)
    (h : Heap) (base : Ref) (ks : List Key) (nextKey : Option Seg) (vals : Ref)
    (withArrays : Bool) (accA : Nat) : Except String Ref × Heap :=
  if !(isArrayRef h vals) then (.error shapeErr, h)
  else
    match reduceWithArrayGo setTail nextKey base vals withArrays accA ks 0 h with
    | (.ok _, h1) => (.ok (.addr accA), h1)
    | (.error e, h1) => (.error e, h1)

/-- The reduce body of `reduceWithObject(setFunction)`: one iteration per
group key, writing into the object accumulator at address `accA`; `posMode`
records the entry check `Array.isArray(values)` choosing positional
(`values[index]`) or keyed (`values[key]`) values.  The `values` read is
fallible (`getPropE`): with `null`/`undefined` values the keyed branch
throws a TypeError, after `nextBase` has already run (JS evaluates the
arguments of `fn(nextBase(...), path.slice(1), values[key], ...)` left to
right). -/
def reduceWithObjectGo (setTail : Heap → Ref → Ref → Except String Ref × Heap)
    (nextKey : Option Seg) (base vals : Ref) (posMode withArrays : Bool) (accA : Nat) :
    List Key → Nat → Heap → Except String Unit × Heap
  | [], _, h => (.ok (), h)
  | k :: kt, idx, h =>
    let (nb, h1) := nextBase h base (keyName k) nextKey withArrays
    match
      (if posMode then getPropE h1 vals (toString idx)
       else getPropE h1 vals (keyName k)) with
    | .error e => (.error e, h1)
    | .ok vi =>
      match setTail h1 nb vi with
      | (.error e, h2) => (.error e, h2)
      | (.ok nv, h2) =>
        let h3 := writeCell h2 accA (.objC (setField (getFields h2 (.addr accA)) (keyName k) nv))
        reduceWithObjectGo setTail nextKey base vals posMode withArrays accA kt (idx + 1) h3

/-- `reduceWithObject(setFunction)` applied to its arguments: builds the
fresh object accumulator at `accA` (one field per group key), which the
caller then spreads over `currentBase`. -/
def reduceWithObject (setTail : Heap → Ref → Ref → Except String Ref × Heap)
    (h : Heap) (base : Ref) (ks : List Key) (nextKey : Option Seg) (vals : Ref)
    (withArrays : Bool) (accA : Nat) : Except String Unit × Heap :=
  reduceWithObjectGo setTail nextKey base vals (isArrayRef h vals) withArrays accA ks 0 h

/-- `set(base, path, value, withArrays)` from set.js: the recursive setter.
Returns the value of the new level (or the thrown error) and the heap after
the call. -/
def set : List Seg → Heap → Ref → Ref → Bool → Except String Ref × Heap
  | [], h, _, value, _ => (.ok value, h)
  | seg :: rest, h, base, value, withArrays =>
    let cbh := coerceBase h base seg withArrays
    let cb := cbh.1
    let h1 := cbh.2
    match seg with
    | .group ks =>
      if isArrayRef h1 cb then
        let (accA, h2) := alloc h1 (.arrC (getElems h1 cb))
        reduceWithArray (fun h9 b v => set rest h9 b v withArrays)
          h2 cb ks rest.head? value withArrays accA
      else
        let fs := getFields h1 cb
        let (accA, h2) := alloc h1 (.objC [])
        match reduceWithObject (fun h9 b v => set rest h9 b v withArrays)
            h2 cb ks rest.head? value withArrays accA with
        | (.ok _, h3) =>
          let (r, h4) := alloc h3 (.objC (mergeFields fs (getFields h3 (.addr accA))))
          (.ok (.addr r), h4)
        | (.error e, h3) => (.error e, h3)
    | .key k =>
      if isArrayRef h1 cb then
        let es := getElems h1 cb
        let (nb, h2) := nextBase h1 cb (keyName k) rest.head? withArrays
        match set rest h2 nb value withArrays with
        | (.ok nv, h3) =>
          let (r, h4) := alloc h3 (.arrC (jsSplice es k nv))
          (.ok (.addr r), h4)
        | (.error e, h3) => (.error e, h3)
      else
        let fs := getFields h1 cb
        let (nb, h2) := nextBase h1 cb (keyName k) rest.head? withArrays
        match set rest h2 nb value withArrays with
        | (.ok nv, h3) =>
          let (r, h4) := alloc h3 (.objC (setField fs (keyName k) nv))
          (.ok (.addr r), h4)
        | (.error e, h3) => (.error e, h3)

/-- `recursiveEqual(base, path, value, equality)` from set.js. -/
def recursiveEqual (h : Heap) (base : Ref) (path : List Seg) (value : Ref)
    (eqF : Option (Ref → Ref → Bool)) : Bool :=
  match base with
  | .addr _ =>
    match path with
    | [] =>
      (match eqF with
       | some f => f (getProp h base "undefined") value
       | none => getProp h base "undefined" = value)
    | [k] =>
      (match eqF with
       | some f => f (getProp h base (segName k)) value
       | none => getProp h base (segName k) = value)
    | k :: rest => recursiveEqual h (getProp h base (segName k)) rest value eqF
  | _ => false

/-- Maximal digit run at the head of a character list, with the remainder. -/
def digitSpan : List Char → List Char × List Char
  | [] => ([], [])
  | c :: cs =>
    if c.isDigit then
      let (d, r) := digitSpan cs
      (c :: d, r)
    else ([], c :: cs)

/-- Leftmost match of the regex `\[([0-9]*)\]` in a character list: the index
of the `[` and the captured digit run. -/
def findBracket : List Char → Option (Nat × List Char)
  | [] => none
  | c :: cs =>
    if c = '[' then
      let (ds, r) := digitSpan cs
      match r with
      | ']' :: _ => some (0, ds)
      | _ =>
        match findBracket cs with
        | some (i, ds') => some (i + 1, ds')
        | none => none
    else
      match findBracket cs with
      | some (i, ds') => some (i + 1, ds')
      | none => none

/-- One token of a dotted string path:
`acc.push(key.substr(0, groupe.index), Number(groupe[1]))` when the bracket
regex matches, `acc.push(key)` otherwise. -/
def parseToken (t : String) : List Seg :=
  match findBracket t.data with
  | some (i, ds) => [.key (.str (String.mk (t.data.take i))), .key (.num (digitsToNat ds))]
  | none => [.key (.str t)]

/-- JS `s.split('.')` over characters: maximal run decomposition at `.`,
keeping empty pieces. -/
def splitDot : List Char → List (List Char)
  | [] => [[]]
  | c :: cs =>
    if c = '.' then [] :: splitDot cs
    else
      match splitDot cs with
      | t :: ts => (c :: t) :: ts
      | [] => [[c]]

/-- The string-path normalization in safeSet: split on `.`, then expand each
token through the bracket regex. -/
def parseStringPath (s : String) : List Seg :=
  ((splitDot s.data).map String.mk).foldl (fun acc t => acc ++ parseToken t) []

/-- The recognized options of the top-level entry point. -/
structure Options where
  withArrays : Bool := false
  equality : Option (Ref → Ref → Bool) := none
  safe : Bool := false

/-- The `initialPath` argument: a string, an array of segments, or anything
else (treated as "no path"). -/
inductive PathInput where
  | strP (s : String)
  | listP (l : List Seg)
  | otherP (r : Ref)

/-- The path-normalization step of safeSet: a non-empty string is parsed,
everything else is passed through. -/
def normalizePath : PathInput → PathInput
  | .strP s => if s.length > 0 then .listP (parseStringPath s) else .strP s
  | p => p

/-- `safeSet(base, initialPath, value, options)` from set.js: the default
export. -/
def safeSet (h : Heap) (base : Ref) (initialPath : PathInput) (value : Ref)
    (opts : Options) : Except String Ref × Heap :=
  match normalizePath initialPath with
  | .listP l =>
    if l.length < 1 then (.ok (if base = value then base else value), h)
    else if opts.safe && recursiveEqual h base l value opts.equality then (.ok base, h)
    else set l h base value opts.withArrays
  | _ => (.ok (if base = value then base else value), h)

/-- A pure (heap-free) value tree, for stating deep-equality facts. -/
inductive PVal where
  | prim (p : Prim)
  | arr (xs : List PVal)
  | obj (fs : List (String × PVal))

/-- Apply an option-valued function across a list, failing when any entry
fails. -/
def mapOption (f : α → Option β) : List α → Option (List β)
  | [] => some []
  | a :: as =>
    match f a, mapOption f as with
    | some b, some bs => some (b :: bs)
    | _, _ => none

/-- Read a value back from the heap as a pure tree, with enough fuel. -/
def readback : Nat → Heap → Ref → Option PVal
  | 0, _, _ => none
  | _ + 1, _, .prim p => some (.prim p)
  | fuel + 1, h, .addr a =>
    match h[a]? with
    | some (.arrC es) => (mapOption (fun r => readback fuel h r) es).map PVal.arr
    | some (.objC fs) =>
      (mapOption (fun kv => (readback fuel h kv.2).map fun p => (kv.1, p)) fs).map PVal.obj
    | none => none

/-! ### Heap preservation: the code never writes to a pre-existing cell. -/

/-- `h2` preserves every cell live in `h`: same content at every old
address (so everything observable on old values is unchanged). -/
def presFrom (h h2 : Heap) : Prop :=
  h.length ≤ h2.length ∧ ∀ a, a < h.length → h2[a]? = h[a]?

/-- `h2` preserves every cell live in `h` except possibly address `x`
(used while a loop mutates its own fresh accumulator `x`). -/
def presExc (x : Nat) (h h2 : Heap) : Prop :=
  h.length ≤ h2.length ∧ ∀ a, a < h.length → a ≠ x → h2[a]? = h[a]?

theorem presFrom_refl (h : Heap) : presFrom h h :=
  ⟨le_refl _, fun _ _ => rfl⟩

theorem presFrom_trans {h1 h2 h3 : Heap} (p : presFrom h1 h2) (q : presFrom h2 h3) :
    presFrom h1 h3 :=
  ⟨le_trans p.1 q.1, fun a ha => (q.2 a (lt_of_lt_of_le ha p.1)).trans (p.2 a ha)⟩

theorem presFrom_append (h : Heap) (c : Cell) : presFrom h (h ++ [c]) :=
  ⟨by simp, fun a ha => List.getElem?_append_left ha⟩

theorem presExc_of_presFrom {x : Nat} {h h2 : Heap} (p : presFrom h h2) : presExc x h h2 :=
  ⟨p.1, fun a ha _ => p.2 a ha⟩

theorem presExc_trans {x : Nat} {h1 h2 h3 : Heap} (p : presExc x h1 h2) (q : presExc x h2 h3) :
    presExc x h1 h3 :=
  ⟨le_trans p.1 q.1, fun a ha hx => (q.2 a (lt_of_lt_of_le ha p.1) hx).trans (p.2 a ha hx)⟩

theorem presExc_write (h : Heap) (x : Nat) (c : Cell) : presExc x h (writeCell h x c) :=
  ⟨by simp [writeCell], fun a _ hx => by
    simp [writeCell, List.getElem?_set_ne (fun hxa => hx (hxa.symm))]⟩

/-- Crossing a phase that may touch only a fresh address `x` preserves
everything live before it. -/
theorem presFrom_through {h h1 h2 : Heap} {x : Nat} (p : presFrom h h1)
    (hx : h.length ≤ x) (q : presExc x h1 h2) : presFrom h h2 :=
  ⟨le_trans p.1 q.1, fun a ha =>
    (q.2 a (lt_of_lt_of_le ha p.1) (by omega)).trans (p.2 a ha)⟩

theorem nextBase_pres (h : Heap) (base : Ref) (name : String) (nk : Option Seg)
    (w : Bool) : presFrom h (nextBase h base name nk w).2 := by
  simp only [nextBase, alloc]
  split
  · exact presFrom_refl h
  · split <;> exact presFrom_append h _

theorem nextBase_len (h : Heap) (base : Ref) (name : String) (nk : Option Seg)
    (w : Bool) : h.length ≤ (nextBase h base name nk w).2.length :=
  (nextBase_pres h base name nk w).1

theorem coerceBase_pres (h : Heap) (base : Ref) (seg : Seg) (w : Bool) :
    presFrom h (coerceBase h base seg w).2 := by
  simp only [coerceBase, alloc]
  split
  · exact presFrom_refl h
  · split <;> exact presFrom_append h _

theorem reduceWithArrayGo_presExc (setTail : Heap → Ref → Ref → Except String Ref × Heap)
    (Hst : ∀ h b v, presFrom h (setTail h b v).2) (nk : Option Seg) (base vals : Ref)
    (w : Bool) (accA : Nat) :
    ∀ (ks : List Key) (idx : Nat) (h : Heap),
      presExc accA h (reduceWithArrayGo setTail nk base vals w accA ks idx h).2 := by
  intro ks
  induction ks with
  | nil => intro idx h; exact presExc_of_presFrom (presFrom_refl h)
  | cons k kt ih =>
    intro idx h
    simp only [reduceWithArrayGo]
    rcases hst : setTail (nextBase h base (keyName k) nk w).2
        (nextBase h base (keyName k) nk w).1
        (getProp (nextBase h base (keyName k) nk w).2 vals (toString idx)) with ⟨r, h2⟩
    have pres12 : presFrom h h2 := by
      have := Hst (nextBase h base (keyName k) nk w).2 (nextBase h base (keyName k) nk w).1
        (getProp (nextBase h base (keyName k) nk w).2 vals (toString idx))
      rw [hst] at this
      exact presFrom_trans (nextBase_pres h base (keyName k) nk w) this
    cases r with
    | error e => exact presExc_of_presFrom pres12
    | ok nv =>
      exact presExc_trans (presExc_of_presFrom pres12)
        (presExc_trans (presExc_write h2 accA _) (ih (idx + 1) _))

theorem reduceWithObjectGo_presExc (setTail : Heap → Ref → Ref → Except String Ref × Heap)
    (Hst : ∀ h b v, presFrom h (setTail h b v).2) (nk : Option Seg) (base vals : Ref)
    (pm w : Bool) (accA : Nat) :
    ∀ (ks : List Key) (idx : Nat) (h : Heap),
      presExc accA h (reduceWithObjectGo setTail nk base vals pm w accA ks idx h).2 := by
  intro ks
  induction ks with
  | nil => intro idx h; exact presExc_of_presFrom (presFrom_refl h)
  | cons k kt ih =>
    intro idx h
    simp only [reduceWithObjectGo]
    rcases hvi : (if pm = true then getPropE (nextBase h base (keyName k) nk w).2 vals (toString idx)
        else getPropE (nextBase h base (keyName k) nk w).2 vals (keyName k)) with e0 | vi
    · exact presExc_of_presFrom (nextBase_pres h base (keyName k) nk w)
    · dsimp only
      rcases hst : setTail (nextBase h base (keyName k) nk w).2
          (nextBase h base (keyName k) nk w).1 vi with ⟨r, h2⟩
      have pres12 : presFrom h h2 := by
        have := Hst (nextBase h base (keyName k) nk w).2 (nextBase h base (keyName k) nk w).1 vi
        rw [hst] at this
        exact presFrom_trans (nextBase_pres h base (keyName k) nk w) this
      cases r with
      | error e => exact presExc_of_presFrom pres12
      | ok nv =>
        exact presExc_trans (presExc_of_presFrom pres12)
          (presExc_trans (presExc_write h2 accA _) (ih (idx + 1) _))

theorem reduceWithArray_presExc (setTail : Heap → Ref → Ref → Except String Ref × Heap)
    (Hst : ∀ h b v, presFrom h (setTail h b v).2) (h : Heap) (base : Ref) (ks : List Key)
    (nk : Option Seg) (vals : Ref) (w : Bool) (accA : Nat) :
    presExc accA h (reduceWithArray setTail h base ks nk vals w accA).2 := by
  unfold reduceWithArray
  split
  · exact presExc_of_presFrom (presFrom_refl h)
  · rcases hgo : reduceWithArrayGo setTail nk base vals w accA ks 0 h with ⟨r, h1⟩
    have := reduceWithArrayGo_presExc setTail Hst nk base vals w accA ks 0 h
    rw [hgo] at this
    cases r with
    | error e => exact this
    | ok u => exact this

theorem reduceWithObject_presExc (setTail : Heap → Ref → Ref → Except String Ref × Heap)
    (Hst : ∀ h b v, presFrom h (setTail h b v).2) (h : Heap) (base : Ref) (ks : List Key)
    (nk : Option Seg) (vals : Ref) (w : Bool) (accA : Nat) :
    presExc accA h (reduceWithObject setTail h base ks nk vals w accA).2 :=
  reduceWithObjectGo_presExc setTail Hst nk base vals (isArrayRef h vals) w accA ks 0 h

/-- No call of the recursive setter ever changes a pre-existing heap cell:
the heap only grows, on every code path (success or error). -/
theorem set_pres : ∀ (path : List Seg) (h : Heap) (base value : Ref) (w : Bool),
    presFrom h (set path h base value w).2 := by
  intro path
  induction path with
  | nil => intro h b v w; exact presFrom_refl h
  | cons seg rest ih =>
    intro h b v w
    cases seg with
    | group ks =>
      have hcb : h.length ≤ (coerceBase h b (.group ks) w).2.length :=
        (coerceBase_pres h b (.group ks) w).1
      have hpcb : presFrom h (coerceBase h b (.group ks) w).2 := coerceBase_pres h b (.group ks) w
      simp only [set, alloc]
      split
      · exact presFrom_through (presFrom_trans hpcb (presFrom_append _ _))
          (by simpa using hcb)
          (reduceWithArray_presExc _ (fun h9 b9 v9 => ih h9 b9 v9 w) _ _ _ _ _ _ _)
      · rcases hro : reduceWithObject (fun h9 b9 v9 => set rest h9 b9 v9 w)
            ((coerceBase h b (.group ks) w).2 ++ [.objC []])
            (coerceBase h b (.group ks) w).1 ks rest.head? v w
            (coerceBase h b (.group ks) w).2.length with ⟨r, h3⟩
        have hq : presExc (coerceBase h b (.group ks) w).2.length
            ((coerceBase h b (.group ks) w).2 ++ [.objC []]) h3 := by
          have := reduceWithObject_presExc (fun h9 b9 v9 => set rest h9 b9 v9 w)
            (fun h9 b9 v9 => ih h9 b9 v9 w)
            ((coerceBase h b (.group ks) w).2 ++ [.objC []])
            (coerceBase h b (.group ks) w).1 ks rest.head? v w
            (coerceBase h b (.group ks) w).2.length
          rw [hro] at this
          exact this
        have hp3 : presFrom h h3 :=
          presFrom_through (presFrom_trans hpcb (presFrom_append _ _)) (by simpa using hcb) hq
        rw [hro]
        cases r with
        | ok u => exact presFrom_trans hp3 (presFrom_append _ _)
        | error e => exact hp3
    | key k =>
      have hpcb : presFrom h (coerceBase h b (.key k) w).2 := coerceBase_pres h b (.key k) w
      have hnb : presFrom h (nextBase (coerceBase h b (.key k) w).2
          (coerceBase h b (.key k) w).1 (keyName k) rest.head? w).2 :=
        presFrom_trans hpcb (nextBase_pres _ _ _ _ _)
      simp only [set, alloc]
      split
      · rcases hrs : set rest (nextBase (coerceBase h b (.key k) w).2
            (coerceBase h b (.key k) w).1 (keyName k) rest.head? w).2
            (nextBase (coerceBase h b (.key k) w).2
              (coerceBase h b (.key k) w).1 (keyName k) rest.head? w).1 v w with ⟨r, h3⟩
        have hp3 : presFrom h h3 := by
          have := ih (nextBase (coerceBase h b (.key k) w).2
              (coerceBase h b (.key k) w).1 (keyName k) rest.head? w).2
            (nextBase (coerceBase h b (.key k) w).2
              (coerceBase h b (.key k) w).1 (keyName k) rest.head? w).1 v w
          rw [hrs] at this
          exact presFrom_trans hnb this
        cases r with
        | ok nv => exact presFrom_trans hp3 (presFrom_append _ _)
        | error e => exact hp3
      · rcases hrs : set rest (nextBase (coerceBase h b (.key k) w).2
            (coerceBase h b (.key k) w).1 (keyName k) rest.head? w).2
            (nextBase (coerceBase h b (.key k) w).2
              (coerceBase h b (.key k) w).1 (keyName k) rest.head? w).1 v w with ⟨r, h3⟩
        have hp3 : presFrom h h3 := by
          have := ih (nextBase (coerceBase h b (.key k) w).2
              (coerceBase h b (.key k) w).1 (keyName k) rest.head? w).2
            (nextBase (coerceBase h b (.key k) w).2
              (coerceBase h b (.key k) w).1 (keyName k) rest.head? w).1 v w
          rw [hrs] at this
          exact presFrom_trans hnb this
        cases r with
        | ok nv => exact presFrom_trans hp3 (presFrom_append _ _)
        | error e => exact hp3

theorem safeSet_pres (h : Heap) (base : Ref) (pin : PathInput) (v : Ref) (o : Options) :
    presFrom h (safeSet h base pin v o).2 := by
  unfold safeSet
  rcases normalizePath pin with s | l | r
  · exact presFrom_refl h
  · simp only
    split
    · exact presFrom_refl h
    · split
      · exact presFrom_refl h
      · exact set_pres l h base v o.withArrays
  · exact presFrom_refl h

theorem mapOption_mono {α β : Type} {f g : α → Option β} {l : List α}
    (H : ∀ a ∈ l, ∀ b, f a = some b → g a = some b) :
    ∀ bs, mapOption f l = some bs → mapOption g l = some bs := by
  induction l with
  | nil => intro bs hbs; simpa using hbs
  | cons a as ih =>
    intro bs hbs
    simp only [mapOption] at hbs ⊢
    cases hfa : f a with
    | none => rw [hfa] at hbs; cases hbs
    | some b =>
      cases hmas : mapOption f as with
      | none => rw [hfa, hmas] at hbs; cases hbs
      | some bs' =>
        rw [hfa, hmas] at hbs
        rw [H a (by simp) b hfa, ih (fun x hx => H x (by simp [hx])) bs' hmas]
        exact hbs

/-- A heap extension preserves every readback that already succeeds: deep
equality of anything observable before the call survives it. -/
theorem readback_mono {h h2 : Heap} (p : presFrom h h2) :
    ∀ (fuel : Nat) (r : Ref) (pv : PVal),
      readback fuel h r = some pv → readback fuel h2 r = some pv := by
  intro fuel
  induction fuel with
  | zero => intro r pv hr; cases hr
  | succ fuel ih =>
    intro r pv hr
    cases r with
    | prim q => simpa [readback] using hr
    | addr a =>
      simp only [readback] at hr ⊢
      cases hc : h[a]? with
      | none => rw [hc] at hr; cases hr
      | some c =>
        have ha : a < h.length := (List.getElem?_eq_some_iff.mp hc).1
        rw [p.2 a ha, hc]
        rw [hc] at hr
        cases c with
        | arrC es =>
          dsimp only at hr ⊢
          cases hm : mapOption (fun r => readback fuel h r) es with
          | none => rw [hm] at hr; cases hr
          | some ps =>
            rw [hm] at hr
            rw [mapOption_mono (fun x _ b hb => ih x b hb) ps hm]
            exact hr
        | objC fs =>
          dsimp only at hr ⊢
          cases hm : mapOption (fun kv => (readback fuel h kv.2).map fun p => (kv.1, p)) fs with
          | none => rw [hm] at hr; cases hr
          | some ps =>
            rw [hm] at hr
            have H : ∀ kv ∈ fs, ∀ b,
                (readback fuel h kv.2).map (fun p => (kv.1, p)) = some b →
                (readback fuel h2 kv.2).map (fun p => (kv.1, p)) = some b := by
              intro kv _ b hb
              rcases Option.map_eq_some'.mp hb with ⟨p, hp, hbp⟩
              rw [ih kv.2 p hp]
              simpa using hbp
            rw [mapOption_mono H ps hm]
            exact hr

/-- C1: for every base, path, value and configuration, calling `update`
(`safeSet`) never mutates the original base at any depth, on every code path
including the error path: every pre-existing heap cell is unchanged after
the call, hence every property observable on `base` by deep equality
(readback) is identical before and after. -/
theorem claim1_no_mutation (h : Heap) (base : Ref) (pin : PathInput) (value : Ref)
    (opts : Options) :
    (∀ a, a < h.length → ((safeSet h base pin value opts).2)[a]? = h[a]?)
    ∧ (∀ fuel r pv, readback fuel h r = some pv →
        readback fuel (safeSet h base pin value opts).2 r = some pv) :=
  ⟨(safeSet_pres h base pin value opts).2,
   fun fuel r pv hr => readback_mono (safeSet_pres h base pin value opts) fuel r pv hr⟩

/-- Witness for C1 on the error path: a group update over an array level
with a non-array value throws, and the original array still reads back
unchanged afterwards. -/
theorem claim1_no_mutation_witness :
    readback 2 (safeSet [Cell.arrC [.prim (.num 1)]] (.addr 0)
        (.listP [.group [.num 0]]) (.prim (.num 5)) {}).2 (.addr 0)
      = some (.arr [.prim (.num 1)]) :=
  (claim1_no_mutation [Cell.arrC [.prim (.num 1)]] (.addr 0)
    (.listP [.group [.num 0]]) (.prim (.num 5)) {}).2 2 (.addr 0)
    (.arr [.prim (.num 1)]) rfl

deriving instance DecidableEq for Except

/-- C5: with safe mode enabled, when the equality pre-check reports the
value already present at the (non-empty, normalized) path, `safeSet`
returns the very same reference as `base`, with the heap untouched. -/
theorem claim5_safe_identity (h : Heap) (base : Ref) (pin : PathInput) (value : Ref)
    (opts : Options) (l : List Seg) (hnp : normalizePath pin = .listP l)
    (hlen : 1 ≤ l.length) (hsafe : opts.safe = true)
    (heq : recursiveEqual h base l value opts.equality = true) :
    safeSet h base pin value opts = (.ok base, h) := by
  unfold safeSet
  rw [hnp]
  dsimp only
  rw [if_neg (by omega), if_pos (by rw [hsafe, heq]; rfl)]

/-- Witness for C5: `update({x:5}, ["x"], 5, {safe:true})` returns the base
reference itself with the heap unchanged. -/
theorem claim5_safe_identity_witness :
    safeSet [Cell.objC [("x", .prim (.num 5))]] (.addr 0) (.listP [.key (.str "x")])
        (.prim (.num 5)) { safe := true }
      = (.ok (.addr 0), [Cell.objC [("x", .prim (.num 5))]]) :=
  claim5_safe_identity _ _ _ _ _ [.key (.str "x")] rfl (by decide) rfl (by decide)

/-- C3 fails on the code: updating the empty mapping at path
`["a", [0, 1]]` with positional values `[10, 20]` yields
`\x7ba: \x7b0: 10, 1: 20\x7d\x7d` - the container auto-created under `"a"` is a
mapping with numeric field names, not the ordered sequence `[10, 20]` the
claim states (in default and in array-preferring mode alike). -/
theorem claim3_counterexample :
    ((safeSet [Cell.objC [], Cell.arrC [.prim (.num 10), .prim (.num 20)]] (.addr 0)
        (.listP [.key (.str "a"), .group [.num 0, .num 1]]) (.addr 1) {}).1
      = .ok (.addr 7))
    ∧ readback 4 (safeSet [Cell.objC [], Cell.arrC [.prim (.num 10), .prim (.num 20)]] (.addr 0)
        (.listP [.key (.str "a"), .group [.num 0, .num 1]]) (.addr 1) {}).2 (.addr 7)
      = some (.obj [("a", .obj [("0", .prim (.num 10)), ("1", .prim (.num 20))])])
    ∧ readback 4 (safeSet [Cell.objC [], Cell.arrC [.prim (.num 10), .prim (.num 20)]] (.addr 0)
        (.listP [.key (.str "a"), .group [.num 0, .num 1]]) (.addr 1) {}).2 (.addr 7)
      ≠ some (.obj [("a", .arr [.prim (.num 10), .prim (.num 20)])])
    ∧ readback 4 (safeSet [Cell.objC [], Cell.arrC [.prim (.num 10), .prim (.num 20)]] (.addr 0)
        (.listP [.key (.str "a"), .group [.num 0, .num 1]]) (.addr 1)
        { withArrays := true }).2 (.addr 7)
      = some (.obj [("a", .obj [("0", .prim (.num 10)), ("1", .prim (.num 20))])]) := by
  refine ⟨by decide, rfl, ?_, rfl⟩
  rw [show readback 4 (safeSet [Cell.objC [], Cell.arrC [.prim (.num 10), .prim (.num 20)]]
      (.addr 0) (.listP [.key (.str "a"), .group [.num 0, .num 1]]) (.addr 1) {}).2 (.addr 7)
    = some (.obj [("a", .obj [("0", .prim (.num 10)), ("1", .prim (.num 20))])]) from rfl]
  simp

/-- C3 amended: updating the empty mapping at `["a", [0, 1]]` with
positional values `[10, 20]` yields `\x7ba: \x7b0: 10, 1: 20\x7d\x7d`: the slot under
`"a"` is auto-created as a mapping even though the group keys are numeric,
because `nextBase` only prefers an array when the single next key is a
number, and a group is not a number. -/
theorem claim3_amended :
    (readback 4 (safeSet [Cell.objC [], Cell.arrC [.prim (.num 10), .prim (.num 20)]] (.addr 0)
        (.listP [.key (.str "a"), .group [.num 0, .num 1]]) (.addr 1) {}).2 (.addr 7)
      = some (.obj [("a", .obj [("0", .prim (.num 10)), ("1", .prim (.num 20))])]))
    ∧ (readback 4 (safeSet [Cell.objC [], Cell.arrC [.prim (.num 10), .prim (.num 20)]] (.addr 0)
        (.listP [.key (.str "a"), .group [.num 0, .num 1]]) (.addr 1)
        { withArrays := true }).2 (.addr 7)
      = some (.obj [("a", .obj [("0", .prim (.num 10)), ("1", .prim (.num 20))])]))
    ∧ (∀ (h : Heap) (base : Ref) (ks : List Key) (w : Bool),
        truthy (getProp h base "a") = false →
        (nextBase h base "a" (some (.group ks)) w).1 = .addr h.length
        ∧ (nextBase h base "a" (some (.group ks)) w).2 = h ++ [.objC []]) := by
  refine ⟨rfl, rfl, ?_⟩
  intro h base ks w hf
  simp [nextBase, hf, isNumSeg, alloc]

/-- C6 fails on the code: the parser pushes `key.substr(0, groupe.index)`
unconditionally, so the string path `"[0]"` normalizes to the two-segment
path `["", 0]`, not to `[0]`. -/
theorem claim6_counterexample :
    parseStringPath "[0]" = [.key (.str ""), .key (.num 0)]
    ∧ parseStringPath "[0]" ≠ [.key (.num 0)] := by
  exact ⟨by decide, by decide⟩

/-- C6 amended: a token that is only a bracketed index keeps its empty
string prefix: `"[0]"` normalizes to `["", 0]` (and through the entry
point, `"[0]"` becomes the segment list `["", 0]`). -/
theorem claim6_amended :
    parseStringPath "[0]" = [.key (.str ""), .key (.num 0)]
    ∧ normalizePath (.strP "[0]") = .listP [.key (.str ""), .key (.num 0)] :=
  ⟨by decide, rfl⟩

theorem findBracket_none {cs : List Char} (hnb : '[' ∉ cs) : findBracket cs = none := by
  induction cs with
  | nil => rfl
  | cons c cs ih =>
    have hc : c ≠ '[' := fun hc => hnb (by simp [hc])
    have ih0 : findBracket cs = none := ih (fun hm => hnb (by simp [hm]))
    simp [findBracket, hc, ih0]

/-- A token without a `[` is never split: it stays a single string segment. -/
theorem parseToken_no_bracket {t : String} (hnb : '[' ∉ t.data) :
    parseToken t = [.key (.str t)] := by
  simp [parseToken, findBracket_none hnb]

/-- C10: only bracket syntax produces numeric segments.  A token without a
bracket stays one string segment, `"a.0.b"` normalizes to the three string
segments `["a","0","b"]`, and accordingly (array-preferring mode on) the
update `update({}, "a.0.b", 7, {withArrays: true})` auto-creates mappings
all the way down: the result is `\x7ba: \x7b"0": \x7bb: 7\x7d\x7d\x7d`, with no array. -/
theorem claim10_dotted_numeric_token :
    (∀ t : String, '[' ∉ t.data → parseToken t = [.key (.str t)])
    ∧ parseStringPath "a.0.b" = [.key (.str "a"), .key (.str "0"), .key (.str "b")]
    ∧ ((safeSet [Cell.objC []] (.addr 0) (.strP "a.0.b") (.prim (.num 7))
        { withArrays := true }).1 = .ok (.addr 6))
    ∧ readback 5 (safeSet [Cell.objC []] (.addr 0) (.strP "a.0.b") (.prim (.num 7))
        { withArrays := true }).2 (.addr 6)
      = some (.obj [("a", .obj [("0", .obj [("b", .prim (.num 7))])])]) :=
  ⟨fun _ hnb => parseToken_no_bracket hnb, by decide, by decide, rfl⟩

/-- Witness for C10: the universally quantified part applied to the
bracket-free token `"0"`. -/
theorem claim10_dotted_numeric_token_witness :
    parseToken "0" = [.key (.str "0")] :=
  claim10_dotted_numeric_token.1 "0" (by decide)

/-! ### Decimal printing facts: `toString (n : Nat)` is a canonical numeral. -/

theorem digitChar_isDigit : ∀ d, d < 10 → (Nat.digitChar d).isDigit = true := by decide

theorem digitChar_val : ∀ d, d < 10 → (Nat.digitChar d).toNat - 48 = d := by decide

theorem toDigitsCore_append (f : Nat) :
    ∀ n acc, Nat.toDigitsCore 10 f n acc = Nat.toDigitsCore 10 f n [] ++ acc := by
  induction f with
  | zero => intro n acc; simp [Nat.toDigitsCore]
  | succ f ih =>
    intro n acc
    simp only [Nat.toDigitsCore]
    by_cases h : n / 10 = 0
    · simp [h]
    · simp only [h, if_false]
      rw [ih (n / 10) (Nat.digitChar (n % 10) :: acc), ih (n / 10) [Nat.digitChar (n % 10)]]
      simp

theorem toDigitsCore_ne_nil (f n : Nat) : Nat.toDigitsCore 10 (f + 1) n [] ≠ [] := by
  simp only [Nat.toDigitsCore]
  by_cases h : n / 10 = 0
  · simp [h]
  · simp only [h, if_false]
    rw [toDigitsCore_append f (n / 10) [Nat.digitChar (n % 10)]]
    simp

theorem toDigitsCore_digits (f : Nat) :
    ∀ n, ∀ c ∈ Nat.toDigitsCore 10 f n [], c.isDigit = true := by
  induction f with
  | zero => intro n c hc; cases hc
  | succ f ih =>
    intro n c hc
    simp only [Nat.toDigitsCore] at hc
    by_cases h : n / 10 = 0
    · simp [h] at hc
      rw [hc]
      exact digitChar_isDigit (n % 10) (Nat.mod_lt n (by omega))
    · rw [if_neg h, toDigitsCore_append f (n / 10) [Nat.digitChar (n % 10)]] at hc
      rcases List.mem_append.mp hc with hm | hm
      · exact ih (n / 10) c hm
      · simp at hm
        rw [hm]
        exact digitChar_isDigit (n % 10) (Nat.mod_lt n (by omega))

theorem toDigitsCore_val (f : Nat) :
    ∀ n, n < f → digitsToNat (Nat.toDigitsCore 10 f n []) = n := by
  induction f with
  | zero => intro n hn; cases hn
  | succ f ih =>
    intro n hn
    simp only [Nat.toDigitsCore]
    by_cases h : n / 10 = 0
    · have h10 : n < 10 := by omega
      simp only [h, if_true]
      simp [digitsToNat, digitChar_val (n % 10) (Nat.mod_lt n (by omega) )]
      omega
    · rw [if_neg h, toDigitsCore_append f (n / 10) [Nat.digitChar (n % 10)]]
      have hlt : n / 10 < f := by omega
      simp only [digitsToNat] at ih ⊢
      rw [List.foldl_append, ih (n / 10) hlt]
      simp [digitChar_val (n % 10) (Nat.mod_lt n (by omega))]
      omega

theorem toString_nat_data (n : Nat) : (toString n).data = Nat.toDigitsCore 10 (n + 1) n [] := rfl

theorem toString_nat_all_digits (n : Nat) : (toString n).data.all Char.isDigit = true := by
  rw [toString_nat_data, List.all_eq_true]
  exact fun c hc => toDigitsCore_digits (n + 1) n c hc

theorem toString_nat_not_empty (n : Nat) : (toString n).data.isEmpty = false := by
  rw [toString_nat_data]
  cases hd : Nat.toDigitsCore 10 (n + 1) n [] with
  | nil => exact absurd hd (toDigitsCore_ne_nil n n)
  | cons c cs => rfl

theorem digitsToNat_toString (n : Nat) : digitsToNat (toString n).data = n := by
  rw [toString_nat_data]
  exact toDigitsCore_val (n + 1) n (Nat.lt_succ_self n)

theorem canonIdx_toString (n : Nat) : canonIdx (toString n) = some n := by
  simp only [canonIdx, toString_nat_not_empty, toString_nat_all_digits, Bool.not_false,
    Bool.and_self, if_true, digitsToNat_toString, if_pos rfl]

theorem toString_nat_ne_length (n : Nat) : toString n ≠ "length" := by
  intro hcon
  have hd := toString_nat_all_digits n
  rw [hcon] at hd
  exact absurd hd (by decide)

/-- Reading a numeric property of an array cell is exactly element lookup. -/
theorem getProp_arr_toString {h : Heap} {b : Nat} {es : List Ref} (n : Nat)
    (hc : h[b]? = some (.arrC es)) :
    getProp h (.addr b) (toString n) = (es[n]?).getD (.prim .undef) := by
  simp only [getProp, hc, if_neg (toString_nat_ne_length n), canonIdx_toString]

/-- Entry point reduced to the recursive setter: non-empty segment-list
path, safe mode off. -/
theorem safeSet_listP_set (h : Heap) (base : Ref) (l : List Seg) (value : Ref)
    (opts : Options) (hl : 1 ≤ l.length) (hs : opts.safe = false) :
    safeSet h base (.listP l) value opts = set l h base value opts.withArrays := by
  unfold safeSet normalizePath
  dsimp only
  rw [if_neg (by omega), if_neg (by simp [hs])]

/-- Writing a single numeric key at or past the end of an array level
appends the new value: the result is a fresh array cell holding the old
elements (same references) plus the set value at the end; the only other
allocation is the discarded empty container from `nextBase`. -/
theorem set_arr_index_ge (h : Heap) (b : Nat) (es : List Ref) (value : Ref) (w : Bool)
    (k : Nat) (hc : h[b]? = some (.arrC es)) (hk : es.length ≤ k) :
    set [.key (.num k)] h (.addr b) value w
      = (.ok (.addr (h.length + 1)), h ++ [.objC []] ++ [.arrC (es ++ [value])]) := by
  have hcb : coerceBase h (.addr b) (.key (.num k)) w = (.addr b, h) := by
    simp [coerceBase, isAddr]
  have har : isArrayRef h (.addr b) = true := by simp [isArrayRef, hc]
  have hge : getElems h (.addr b) = es := by simp [getElems, hc]
  have hgp : getProp h (.addr b) (toString k) = .prim .undef := by
    rw [getProp_arr_toString k hc, List.getElem?_eq_none (by omega)]
    rfl
  have hnb : nextBase h (.addr b) (keyName (.num k)) ([] : List Seg).head? w
      = (.addr h.length, h ++ [.objC []]) := by
    simp [nextBase, keyName, hgp, truthy, isNumSeg, alloc]
  have hsp : jsSplice es (.num k) value = es ++ [value] := by
    simp [jsSplice, List.take_of_length_le hk, List.drop_eq_nil_of_le (Nat.le_succ_of_le hk)]
  simp only [set, hcb, har, hge, hnb, hsp, if_true, alloc]
  simp

/-- C7: writing to an ordered sequence at an index equal to its length
appends: for every array `es` at address `b` and value `v` (safe mode off),
`update(base, [length es], v)` returns a fresh array cell whose elements
are `es` with `v` appended (element references shared). -/
theorem claim7_append_at_length (h : Heap) (b : Nat) (es : List Ref) (value : Ref)
    (opts : Options) (hc : h[b]? = some (.arrC es)) (hs : opts.safe = false) :
    safeSet h (.addr b) (.listP [.key (.num es.length)]) value opts
      = (.ok (.addr (h.length + 1)), h ++ [.objC []] ++ [.arrC (es ++ [value])]) :=
  (safeSet_listP_set h (.addr b) [.key (.num es.length)] value opts (by simp) hs).trans
    (set_arr_index_ge h b es value opts.withArrays es.length hc (le_refl _))

/-- Witness for C7: the spec's two examples, `update([], [0], "x")` and
`update(["x"], [1], "y")`. -/
theorem claim7_append_at_length_witness :
    safeSet [Cell.arrC []] (.addr 0) (.listP [.key (.num 0)]) (.prim (.str "x")) {}
      = (.ok (.addr 2), [Cell.arrC [], Cell.objC [], Cell.arrC [.prim (.str "x")]])
    ∧ safeSet [Cell.arrC [.prim (.str "x")]] (.addr 0) (.listP [.key (.num 1)])
        (.prim (.str "y")) {}
      = (.ok (.addr 2), [Cell.arrC [.prim (.str "x")], Cell.objC [],
          Cell.arrC [.prim (.str "x"), .prim (.str "y")]]) :=
  ⟨claim7_append_at_length [Cell.arrC []] 0 [] (.prim (.str "x")) {} rfl rfl,
   claim7_append_at_length [Cell.arrC [.prim (.str "x")]] 0 [.prim (.str "x")]
     (.prim (.str "y")) {} rfl rfl⟩

/-- C9: writing past the end of an ordered sequence never creates a sparse
sequence.  A single-key update at any index `k ≥ length` appends densely at
position `length` (the result has `length + 1` elements), and the group
reducer's write (`acc[key] = v` or `acc.push(v)`) pushes at the end of the
accumulator for any out-of-range numeric key. -/
theorem claim9_no_sparse (h : Heap) (b : Nat) (es : List Ref) (value : Ref)
    (opts : Options) (k : Nat) (hc : h[b]? = some (.arrC es)) (hs : opts.safe = false)
    (hk : es.length ≤ k) :
    (safeSet h (.addr b) (.listP [.key (.num k)]) value opts
      = (.ok (.addr (h.length + 1)), h ++ [.objC []] ++ [.arrC (es ++ [value])]))
    ∧ (∀ (es2 : List Ref) (k2 : Nat) (v : Ref), es2.length ≤ k2 →
        arrWrite es2 (.num k2) v = es2 ++ [v]) :=
  ⟨(safeSet_listP_set h (.addr b) [.key (.num k)] value opts (by simp) hs).trans
     (set_arr_index_ge h b es value opts.withArrays k hc hk),
   fun es2 k2 v hk2 => by simp [arrWrite, Nat.not_lt.mpr hk2]⟩

/-- Witness for C9: index 5 on a one-element array appends at position 1,
and the reducer write at key 7 on a two-element accumulator pushes. -/
theorem claim9_no_sparse_witness :
    (safeSet [Cell.arrC [.prim (.num 1)]] (.addr 0) (.listP [.key (.num 5)])
        (.prim (.num 9)) {}
      = (.ok (.addr 2), [Cell.arrC [.prim (.num 1)], Cell.objC [],
          Cell.arrC [.prim (.num 1), .prim (.num 9)]]))
    ∧ arrWrite [.prim (.num 1), .prim (.num 2)] (.num 7) (.prim (.num 9))
      = [.prim (.num 1), .prim (.num 2), .prim (.num 9)] :=
  ⟨(claim9_no_sparse [Cell.arrC [.prim (.num 1)]] 0 [.prim (.num 1)] (.prim (.num 9)) {}
      5 rfl rfl (by decide)).1,
   (claim9_no_sparse [Cell.arrC [.prim (.num 1)]] 0 [.prim (.num 1)] (.prim (.num 9)) {}
      5 rfl rfl (by decide)).2 [.prim (.num 1), .prim (.num 2)] 7 (.prim (.num 9)) (by decide)⟩

/-- Writing one field leaves every other field lookup unchanged (same
reference). -/
theorem lookupField_setField_ne (fs : List (String × Ref)) (name : String) (v : Ref) :
    ∀ nm, nm ≠ name → lookupField (setField fs name v) nm = lookupField fs nm := by
  induction fs with
  | nil =>
    intro nm hnm
    have hne : name ≠ nm := fun hx => hnm hx.symm
    simp [setField, lookupField, hne]
  | cons kv t ih =>
    intro nm hnm
    rcases kv with ⟨k, w0⟩
    by_cases hk : k = name
    · subst hk
      have hne : k ≠ nm := fun hx => hnm hx.symm
      simp [setField, lookupField, hne]
    · simp only [setField, if_neg hk, lookupField]
      by_cases hk2 : k = nm
      · simp [hk2]
      · simp [hk2, ih nm hnm]

/-- Writing one field makes that field hold exactly the written value. -/
theorem lookupField_setField_self (fs : List (String × Ref)) (name : String) (v : Ref) :
    lookupField (setField fs name v) name = v := by
  induction fs with
  | nil => simp [setField, lookupField]
  | cons kv t ih =>
    rcases kv with ⟨k0, w0⟩
    by_cases hk : k0 = name
    · subst hk
      simp [setField, lookupField]
    · simp only [setField, if_neg hk, lookupField]
      exact ih

/-- Every entry of a field write carries the written name or was already
present. -/
theorem setField_mem (fs : List (String × Ref)) (name : String) (v : Ref) :
    ∀ kv ∈ setField fs name v, kv.1 = name ∨ kv ∈ fs := by
  induction fs with
  | nil =>
    intro kv hkv
    simp only [setField, List.mem_singleton] at hkv
    subst hkv
    exact Or.inl rfl
  | cons kv0 t ih =>
    rcases kv0 with ⟨k0, w0⟩
    intro kv hkv
    by_cases hk : k0 = name
    · subst hk
      simp only [setField, if_pos rfl] at hkv
      cases hkv with
      | head => exact Or.inl rfl
      | tail b hkv2 => exact Or.inr (List.mem_cons_of_mem _ hkv2)
    · simp only [setField, if_neg hk, List.mem_cons] at hkv
      rcases hkv with h1 | h1
      · rw [h1]
        exact Or.inr (List.mem_cons_self _ _)
      · rcases ih kv h1 with h2 | h2
        · exact Or.inl h2
        · exact Or.inr (List.mem_cons_of_mem _ h2)

/-- The spread `\x7b...base, ...upd\x7d` leaves every name absent from `upd`
with the identical reference. -/
theorem lookupField_mergeFields_ne (upd : List (String × Ref)) :
    ∀ (fs : List (String × Ref)) (nm : String), (∀ kv ∈ upd, kv.1 ≠ nm) →
      lookupField (mergeFields fs upd) nm = lookupField fs nm := by
  induction upd with
  | nil => intro fs nm _; rfl
  | cons kv t ih =>
    intro fs nm hu
    have step : mergeFields fs (kv :: t) = mergeFields (setField fs kv.1 kv.2) t := rfl
    rw [step, ih (setField fs kv.1 kv.2) nm (fun kv2 h2 => hu kv2 (List.mem_cons_of_mem _ h2))]
    exact lookupField_setField_ne fs kv.1 kv.2 nm (Ne.symm (hu kv (List.mem_cons_self _ _)))

/-- The single-index splice keeps every other in-range index identical. -/
theorem jsSplice_frame_num (es : List Ref) (n : Nat) (v : Ref) :
    ∀ i, i < es.length → i ≠ n → (jsSplice es (.num n) v)[i]? = es[i]? := by
  intro i hi hin
  simp only [jsSplice]
  rcases Nat.lt_or_ge i n with hlt | hge
  · have hti : i < (es.take n).length := by
      simp only [List.length_take]
      omega
    rw [List.getElem?_append_left hti]
    exact List.getElem?_take_of_lt hlt
  · have hgt : n < i := by omega
    have hlen : (es.take n).length = n := by
      simp only [List.length_take]
      omega
    rw [List.getElem?_append_right (by omega : (es.take n).length ≤ i), hlen]
    have h1 : i - n = (i - n - 1) + 1 := by omega
    rw [h1]
    simp only [List.getElem?_cons_succ]
    rw [List.getElem?_drop]
    have h2 : n + 1 + (i - n - 1) = i := by omega
    rw [h2]

/-- Does the batch array write at group key `k` possibly touch index `i`?
`false` guarantees `arrWrite` leaves that slot untouched. -/
def hitsIdx (k : Key) (i : Nat) : Bool :=
  match k with
  | .num n => n == i
  | .str s =>
    match jsNumOfStr s with
    | some n => n == i
    | none => false

theorem arrWrite_len (es : List Ref) (k : Key) (v : Ref) :
    es.length ≤ (arrWrite es k v).length := by
  cases k with
  | num n =>
    simp only [arrWrite]
    split <;> simp
  | str s =>
    simp only [arrWrite]
    split
    · split
      · split <;> simp
      · simp
    · simp

theorem arrWrite_frame (es : List Ref) (k : Key) (v : Ref) (i : Nat)
    (hi : i < es.length) (hk : hitsIdx k i = false) :
    (arrWrite es k v)[i]? = es[i]? := by
  cases k with
  | num n =>
    have hne : n ≠ i := by simpa [hitsIdx] using hk
    simp only [arrWrite]
    split
    · exact List.getElem?_set_ne hne
    · exact List.getElem?_append_left hi
  | str s =>
    simp only [arrWrite]
    simp only [hitsIdx] at hk
    cases hns : jsNumOfStr s with
    | some n =>
      rw [hns] at hk
      simp only at hk
      have hne : n ≠ i := by simpa using hk
      dsimp only
      split
      · split
        · exact List.getElem?_set_ne hne
        · rfl
      · exact List.getElem?_append_left hi
    | none =>
      dsimp only
      exact List.getElem?_append_left hi

/-- Unfolding of one single-key level over a mapping cell. -/
theorem set_objkey_level (h : Heap) (b : Nat) (fs : List (String × Ref)) (k : Key)
    (rest : List Seg) (value : Ref) (w : Bool)
    (hb : h[b]? = some (.objC fs)) :
    set (.key k :: rest) h (.addr b) value w
      = (match set rest (nextBase h (.addr b) (keyName k) rest.head? w).2
              (nextBase h (.addr b) (keyName k) rest.head? w).1 value w with
         | (.ok nv, h3) => (.ok (.addr h3.length), h3 ++ [.objC (setField fs (keyName k) nv)])
         | (.error e, h3) => (.error e, h3)) := by
  have hcb : coerceBase h (.addr b) (.key k) w = (.addr b, h) := by
    simp [coerceBase, isAddr]
  have har : isArrayRef h (.addr b) = false := by simp [isArrayRef, hb]
  have hgf : getFields h (.addr b) = fs := by simp [getFields, hb]
  simp only [set, hcb, har, Bool.false_eq_true, if_false, hgf, alloc]

/-- Unfolding of one single-key level over a sequence cell. -/
theorem set_arrkey_level (h : Heap) (b : Nat) (es : List Ref) (k : Key)
    (rest : List Seg) (value : Ref) (w : Bool)
    (hb : h[b]? = some (.arrC es)) :
    set (.key k :: rest) h (.addr b) value w
      = (match set rest (nextBase h (.addr b) (keyName k) rest.head? w).2
              (nextBase h (.addr b) (keyName k) rest.head? w).1 value w with
         | (.ok nv, h3) => (.ok (.addr h3.length), h3 ++ [.arrC (jsSplice es k nv)])
         | (.error e, h3) => (.error e, h3)) := by
  have hcb : coerceBase h (.addr b) (.key k) w = (.addr b, h) := by
    simp [coerceBase, isAddr]
  have har : isArrayRef h (.addr b) = true := by simp [isArrayRef, hb]
  have hge : getElems h (.addr b) = es := by simp [getElems, hb]
  simp only [set, hcb, har, if_true, hge, alloc]

/-- Unfolding of one group level over a mapping cell. -/
theorem set_objgroup_level (h : Heap) (b : Nat) (fs : List (String × Ref))
    (ks : List Key) (rest : List Seg) (value : Ref) (w : Bool)
    (hb : h[b]? = some (.objC fs)) :
    set (.group ks :: rest) h (.addr b) value w
      = (match reduceWithObjectGo (fun h9 b9 v9 => set rest h9 b9 v9 w) rest.head?
            (.addr b) value (isArrayRef (h ++ [.objC []]) value) w h.length ks 0
            (h ++ [.objC []]) with
         | (.ok _, h3) => (.ok (.addr h3.length),
             h3 ++ [.objC (mergeFields fs (getFields h3 (.addr h.length)))])
         | (.error e, h3) => (.error e, h3)) := by
  have hcb : coerceBase h (.addr b) (.group ks) w = (.addr b, h) := by
    simp [coerceBase, isAddr]
  have har : isArrayRef h (.addr b) = false := by simp [isArrayRef, hb]
  have hgf : getFields h (.addr b) = fs := by simp [getFields, hb]
  simp only [set, hcb, har, Bool.false_eq_true, if_false, hgf, alloc]
  unfold reduceWithObject
  rcases reduceWithObjectGo (fun h9 b9 v9 => set rest h9 b9 v9 w) rest.head?
      (.addr b) value (isArrayRef (h ++ [.objC []]) value) w h.length ks 0
      (h ++ [.objC []]) with ⟨r, h3⟩
  cases r <;> rfl

/-- Unfolding of one group level over a sequence cell. -/
theorem set_arrgroup_level (h : Heap) (b : Nat) (es : List Ref)
    (ks : List Key) (rest : List Seg) (value : Ref) (w : Bool)
    (hb : h[b]? = some (.arrC es)) :
    set (.group ks :: rest) h (.addr b) value w
      = (if !(isArrayRef (h ++ [.arrC es]) value) then (.error shapeErr, h ++ [.arrC es])
         else
           match reduceWithArrayGo (fun h9 b9 v9 => set rest h9 b9 v9 w) rest.head?
               (.addr b) value w h.length ks 0 (h ++ [.arrC es]) with
           | (.ok _, h1) => (.ok (.addr h.length), h1)
           | (.error e, h1) => (.error e, h1)) := by
  have hcb : coerceBase h (.addr b) (.group ks) w = (.addr b, h) := by
    simp [coerceBase, isAddr]
  have har : isArrayRef h (.addr b) = true := by simp [isArrayRef, hb]
  have hge : getElems h (.addr b) = es := by simp [getElems, hb]
  simp only [set, hcb, har, if_true, hge, alloc]
  unfold reduceWithArray
  cases hv : isArrayRef (h ++ [.arrC es]) value with
  | false => rfl
  | true =>
    rcases reduceWithArrayGo (fun h9 b9 v9 => set rest h9 b9 v9 w) rest.head?
        (.addr b) value w h.length ks 0 (h ++ [.arrC es]) with ⟨r, h1⟩
    cases r <;> rfl

/-- One single-key level over a mapping: inversion of a successful call
into the tail call, the fresh root address, and the root cell's content. -/
theorem set_objkey_frame (h : Heap) (b : Nat) (fs : List (String × Ref)) (k : Key)
    (rest : List Seg) (value r0 : Ref) (w : Bool) (h2 : Heap)
    (hb : h[b]? = some (.objC fs))
    (hset : set (.key k :: rest) h (.addr b) value w = (.ok r0, h2)) :
    ∃ (nv : Ref) (h3 : Heap),
      set rest (nextBase h (.addr b) (keyName k) rest.head? w).2
          (nextBase h (.addr b) (keyName k) rest.head? w).1 value w = (.ok nv, h3)
      ∧ r0 = .addr h3.length ∧ h.length ≤ h3.length
      ∧ h2 = h3 ++ [.objC (setField fs (keyName k) nv)] := by
  rw [set_objkey_level h b fs k rest value w hb] at hset
  rcases hrs : set rest (nextBase h (.addr b) (keyName k) rest.head? w).2
      (nextBase h (.addr b) (keyName k) rest.head? w).1 value w with ⟨r, h3⟩
  rw [hrs] at hset
  cases r with
  | error e => simp at hset
  | ok nv =>
    have hr0 : r0 = .addr h3.length := by
      have := congrArg Prod.fst hset
      simpa using this.symm
    have hh2 : h2 = h3 ++ [.objC (setField fs (keyName k) nv)] := by
      have := congrArg Prod.snd hset
      simpa using this.symm
    have hlen : h.length ≤ h3.length := by
      have hp := set_pres rest (nextBase h (.addr b) (keyName k) rest.head? w).2
        (nextBase h (.addr b) (keyName k) rest.head? w).1 value w
      rw [hrs] at hp
      exact le_trans (nextBase_len h (.addr b) (keyName k) rest.head? w) hp.1
    exact ⟨nv, h3, rfl, hr0, hlen, hh2⟩

/-- One single-key level over a sequence: inversion of a successful call. -/
theorem set_arrkey_frame (h : Heap) (b : Nat) (es : List Ref) (k : Key)
    (rest : List Seg) (value r0 : Ref) (w : Bool) (h2 : Heap)
    (hb : h[b]? = some (.arrC es))
    (hset : set (.key k :: rest) h (.addr b) value w = (.ok r0, h2)) :
    ∃ (nv : Ref) (h3 : Heap),
      set rest (nextBase h (.addr b) (keyName k) rest.head? w).2
          (nextBase h (.addr b) (keyName k) rest.head? w).1 value w = (.ok nv, h3)
      ∧ r0 = .addr h3.length ∧ h.length ≤ h3.length
      ∧ h2 = h3 ++ [.arrC (jsSplice es k nv)] := by
  rw [set_arrkey_level h b es k rest value w hb] at hset
  rcases hrs : set rest (nextBase h (.addr b) (keyName k) rest.head? w).2
      (nextBase h (.addr b) (keyName k) rest.head? w).1 value w with ⟨r, h3⟩
  rw [hrs] at hset
  cases r with
  | error e => simp at hset
  | ok nv =>
    have hr0 : r0 = .addr h3.length := by
      have := congrArg Prod.fst hset
      simpa using this.symm
    have hh2 : h2 = h3 ++ [.arrC (jsSplice es k nv)] := by
      have := congrArg Prod.snd hset
      simpa using this.symm
    have hlen : h.length ≤ h3.length := by
      have hp := set_pres rest (nextBase h (.addr b) (keyName k) rest.head? w).2
        (nextBase h (.addr b) (keyName k) rest.head? w).1 value w
      rw [hrs] at hp
      exact le_trans (nextBase_len h (.addr b) (keyName k) rest.head? w) hp.1
    exact ⟨nv, h3, rfl, hr0, hlen, hh2⟩

/-- The object group loop only ever writes its keys into the accumulator:
on success the accumulator is still an object cell and every field name it
carries came from the initial contents or the group keys. -/
theorem reduceWithObjectGo_acc (setTail : Heap → Ref → Ref → Except String Ref × Heap)
    (Hst : ∀ h b v, presFrom h (setTail h b v).2) (nk : Option Seg) (base vals : Ref)
    (pm w : Bool) (accA : Nat) :
    ∀ (ks : List Key) (S : String → Prop) (idx : Nat) (h : Heap)
      (accFs : List (String × Ref)) (u : Unit) (h2 : Heap),
      accA < h.length → h[accA]? = some (.objC accFs) →
      (∀ kv ∈ accFs, S kv.1) →
      reduceWithObjectGo setTail nk base vals pm w accA ks idx h = (.ok u, h2) →
      ∃ accFs2, h2[accA]? = some (.objC accFs2)
        ∧ ∀ kv ∈ accFs2, S kv.1 ∨ kv.1 ∈ ks.map keyName := by
  intro ks
  induction ks with
  | nil =>
    intro S idx h accFs u h2 hlt hacc hin hgo
    have hh : h = h2 := by
      have := congrArg Prod.snd hgo
      simpa using this
    subst hh
    exact ⟨accFs, hacc, fun kv hkv => Or.inl (hin kv hkv)⟩
  | cons k kt ih =>
    intro S idx h accFs u h2 hlt hacc hin hgo
    simp only [reduceWithObjectGo] at hgo
    rcases hvi : (if pm = true then
          getPropE (nextBase h base (keyName k) nk w).2 vals (toString idx)
        else getPropE (nextBase h base (keyName k) nk w).2 vals (keyName k))
      with e0 | vi
    · rw [hvi] at hgo
      simp at hgo
    · rw [hvi] at hgo
      dsimp only at hgo
      rcases hst : setTail (nextBase h base (keyName k) nk w).2
          (nextBase h base (keyName k) nk w).1 vi with ⟨r, h3⟩
      rw [hst] at hgo
      cases r with
      | error e => simp at hgo
      | ok nv =>
        have pres13 : presFrom h h3 := by
          have := Hst (nextBase h base (keyName k) nk w).2
            (nextBase h base (keyName k) nk w).1 vi
          rw [hst] at this
          exact presFrom_trans (nextBase_pres h base (keyName k) nk w) this
        have hacc3 : h3[accA]? = some (.objC accFs) := (pres13.2 accA hlt).trans hacc
        have hlt3 : accA < h3.length := lt_of_lt_of_le hlt pres13.1
        have hgf3 : getFields h3 (.addr accA) = accFs := by simp [getFields, hacc3]
        dsimp only at hgo
        rw [hgf3] at hgo
        have hlt4 : accA < (writeCell h3 accA
            (.objC (setField accFs (keyName k) nv))).length := by
          simpa [writeCell] using hlt3
        have hacc4 : (writeCell h3 accA (.objC (setField accFs (keyName k) nv)))[accA]?
            = some (.objC (setField accFs (keyName k) nv)) := by
          simp [writeCell, List.getElem?_set_eq hlt3]
        have hin4 : ∀ kv ∈ setField accFs (keyName k) nv, S kv.1 ∨ kv.1 = keyName k := by
          intro kv hkv
          rcases setField_mem accFs (keyName k) nv kv hkv with h1 | h1
          · exact Or.inr h1
          · exact Or.inl (hin kv h1)
        obtain ⟨accFs2, hacc2, hmem2⟩ := ih (fun nm => S nm ∨ nm = keyName k) (idx + 1) _
          (setField accFs (keyName k) nv) u h2 hlt4 hacc4 hin4 hgo
        refine ⟨accFs2, hacc2, fun kv hkv => ?_⟩
        rcases hmem2 kv hkv with (hS | hEq) | hMem
        · exact Or.inl hS
        · exact Or.inr (by simp [hEq, List.mem_cons])
        · rw [List.map_cons]
          exact Or.inr (List.mem_cons_of_mem _ hMem)

/-- The array group loop only ever writes its keys into the accumulator:
on success the accumulator is still a sequence at least as long, and every
index hit by no group key holds the identical reference. -/
theorem reduceWithArrayGo_acc (setTail : Heap → Ref → Ref → Except String Ref × Heap)
    (Hst : ∀ h b v, presFrom h (setTail h b v).2) (nk : Option Seg) (base vals : Ref)
    (w : Bool) (accA : Nat) (es : List Ref) (Q : Nat → Prop) :
    ∀ (ks : List Key), (∀ k ∈ ks, ∀ i, i < es.length → Q i → hitsIdx k i = false) →
    ∀ (idx : Nat) (h : Heap) (cur : List Ref) (u : Unit) (h2 : Heap),
      accA < h.length → h[accA]? = some (.arrC cur) → es.length ≤ cur.length →
      (∀ i, i < es.length → Q i → cur[i]? = es[i]?) →
      reduceWithArrayGo setTail nk base vals w accA ks idx h = (.ok u, h2) →
      ∃ cur2, h2[accA]? = some (.arrC cur2) ∧ es.length ≤ cur2.length
        ∧ ∀ i, i < es.length → Q i → cur2[i]? = es[i]? := by
  intro ks
  induction ks with
  | nil =>
    intro _ idx h cur u h2 hlt hacc hlen hfr hgo
    have hh : h = h2 := by
      have := congrArg Prod.snd hgo
      simpa using this
    subst hh
    exact ⟨cur, hacc, hlen, hfr⟩
  | cons k kt ih =>
    intro hQ idx h cur u h2 hlt hacc hlen hfr hgo
    simp only [reduceWithArrayGo] at hgo
    rcases hst : setTail (nextBase h base (keyName k) nk w).2
        (nextBase h base (keyName k) nk w).1
        (getProp (nextBase h base (keyName k) nk w).2 vals (toString idx)) with ⟨r, h3⟩
    rw [hst] at hgo
    cases r with
    | error e => simp at hgo
    | ok nv =>
      have pres13 : presFrom h h3 := by
        have := Hst (nextBase h base (keyName k) nk w).2
          (nextBase h base (keyName k) nk w).1
          (getProp (nextBase h base (keyName k) nk w).2 vals (toString idx))
        rw [hst] at this
        exact presFrom_trans (nextBase_pres h base (keyName k) nk w) this
      have hacc3 : h3[accA]? = some (.arrC cur) := (pres13.2 accA hlt).trans hacc
      have hlt3 : accA < h3.length := lt_of_lt_of_le hlt pres13.1
      have hge3 : getElems h3 (.addr accA) = cur := by simp [getElems, hacc3]
      dsimp only at hgo
      rw [hge3] at hgo
      have hlt4 : accA < (writeCell h3 accA (.arrC (arrWrite cur k nv))).length := by
        simpa [writeCell] using hlt3
      have hacc4 : (writeCell h3 accA (.arrC (arrWrite cur k nv)))[accA]?
          = some (.arrC (arrWrite cur k nv)) := by
        simp [writeCell, List.getElem?_set_eq hlt3]
      have hlen4 : es.length ≤ (arrWrite cur k nv).length :=
        le_trans hlen (arrWrite_len cur k nv)
      have hfr4 : ∀ i, i < es.length → Q i → (arrWrite cur k nv)[i]? = es[i]? := by
        intro i hi hQi
        rw [arrWrite_frame cur k nv i (lt_of_lt_of_le hi hlen)
          (hQ k (List.mem_cons_self _ _) i hi hQi)]
        exact hfr i hi hQi
      exact ih (fun k2 hk2 => hQ k2 (List.mem_cons_of_mem _ hk2)) (idx + 1) _
        (arrWrite cur k nv) u h2 hlt4 hacc4 hlen4 hfr4 hgo

/-- One group level over a mapping: on success the fresh root cell differs
from the level only at the group keys; every other field is the identical
reference. -/
theorem set_objgroup_frame (h : Heap) (b : Nat) (fs : List (String × Ref))
    (ks : List Key) (rest : List Seg) (value r0 : Ref) (w : Bool) (h2 : Heap)
    (hb : h[b]? = some (.objC fs))
    (hset : set (.group ks :: rest) h (.addr b) value w = (.ok r0, h2)) :
    ∃ (a0 : Nat) (fs2 : List (String × Ref)),
      r0 = .addr a0 ∧ h2[a0]? = some (.objC fs2)
      ∧ ∀ nm, nm ∉ ks.map keyName → lookupField fs2 nm = lookupField fs nm := by
  rw [set_objgroup_level h b fs ks rest value w hb] at hset
  rcases hgo : reduceWithObjectGo (fun h9 b9 v9 => set rest h9 b9 v9 w) rest.head?
      (.addr b) value (isArrayRef (h ++ [.objC []]) value) w h.length ks 0
      (h ++ [.objC []]) with ⟨r, h3⟩
  rw [hgo] at hset
  cases r with
  | error e => simp at hset
  | ok u =>
    have hr0 : r0 = .addr h3.length := by
      have := congrArg Prod.fst hset
      simpa using this.symm
    have hh2 : h2 = h3 ++ [.objC (mergeFields fs (getFields h3 (.addr h.length)))] := by
      have := congrArg Prod.snd hset
      simpa using this.symm
    obtain ⟨accFs2, hacc2, hmem2⟩ := reduceWithObjectGo_acc
      (fun h9 b9 v9 => set rest h9 b9 v9 w)
      (fun h9 b9 v9 => set_pres rest h9 b9 v9 w) rest.head? (.addr b) value
      (isArrayRef (h ++ [.objC []]) value) w h.length ks (fun _ => False) 0
      (h ++ [.objC []]) [] u h3 (by simp) (List.getElem?_concat_length h (.objC []))
      (by simp) hgo
    have hgf : getFields h3 (.addr h.length) = accFs2 := by simp [getFields, hacc2]
    refine ⟨h3.length, mergeFields fs accFs2, hr0, ?_, ?_⟩
    · rw [hh2, hgf]
      exact List.getElem?_concat_length h3 _
    · intro nm hnm
      refine lookupField_mergeFields_ne accFs2 fs nm (fun kv hkv => ?_)
      rcases hmem2 kv hkv with hF | hM
      · exact hF.elim
      · exact fun hEq => hnm (hEq ▸ hM)

/-- One group level over a sequence: on success the root is the fresh copy
of the level and every index hit by no group key holds the identical
reference. -/
theorem set_arrgroup_frame (h : Heap) (b : Nat) (es : List Ref) (ks : List Key)
    (rest : List Seg) (value r0 : Ref) (w : Bool) (h2 : Heap)
    (hb : h[b]? = some (.arrC es))
    (hset : set (.group ks :: rest) h (.addr b) value w = (.ok r0, h2)) :
    ∃ (es2 : List Ref),
      r0 = .addr h.length ∧ h2[h.length]? = some (.arrC es2) ∧ es.length ≤ es2.length
      ∧ ∀ i, i < es.length → (∀ k ∈ ks, hitsIdx k i = false) → es2[i]? = es[i]? := by
  rw [set_arrgroup_level h b es ks rest value w hb] at hset
  split at hset
  · simp at hset
  · rcases hgo : reduceWithArrayGo (fun h9 b9 v9 => set rest h9 b9 v9 w) rest.head?
        (.addr b) value w h.length ks 0 (h ++ [.arrC es]) with ⟨r, h1⟩
    rw [hgo] at hset
    cases r with
    | error e => simp at hset
    | ok u =>
      have hr0 : r0 = .addr h.length := by
        have := congrArg Prod.fst hset
        simpa using this.symm
      have hh2 : h2 = h1 := by
        have := congrArg Prod.snd hset
        simpa using this.symm
      subst hh2
      obtain ⟨cur2, hacc2, hlen2, hfr2⟩ := reduceWithArrayGo_acc
        (fun h9 b9 v9 => set rest h9 b9 v9 w)
        (fun h9 b9 v9 => set_pres rest h9 b9 v9 w) rest.head? (.addr b) value w
        h.length es (fun i => ∀ k ∈ ks, hitsIdx k i = false) ks
        (fun k hk i _ hQ => hQ k hk) 0 (h ++ [.arrC es]) es u h2 (by simp)
        (List.getElem?_concat_length h (.arrC es)) (le_refl _)
        (fun i _ _ => rfl) hgo
      exact ⟨cur2, hr0, hacc2, hlen2, hfr2⟩

/-- Every successful non-empty update returns a freshly allocated root
container: an address at or past the old heap end, live in the new heap. -/
theorem set_ok_fresh (seg : Seg) (rest : List Seg) (h : Heap) (base value : Ref)
    (w : Bool) (r0 : Ref) (h2 : Heap)
    (hset : set (seg :: rest) h base value w = (.ok r0, h2)) :
    ∃ a0, r0 = .addr a0 ∧ h.length ≤ a0 ∧ a0 < h2.length := by
  have hcb : h.length ≤ (coerceBase h base seg w).2.length := (coerceBase_pres h base seg w).1
  cases seg with
  | key k =>
    simp only [set, alloc] at hset
    split at hset <;>
    · rcases hrs : set rest (nextBase (coerceBase h base (.key k) w).2
          (coerceBase h base (.key k) w).1 (keyName k) rest.head? w).2
          (nextBase (coerceBase h base (.key k) w).2
            (coerceBase h base (.key k) w).1 (keyName k) rest.head? w).1 value w with ⟨r, h3⟩
      rw [hrs] at hset
      cases r with
      | error e => simp at hset
      | ok nv =>
        have hr0 : r0 = .addr h3.length := by
          have := congrArg Prod.fst hset
          simpa using this.symm
        have hh2 := congrArg Prod.snd hset
        simp only at hh2
        have hp := set_pres rest (nextBase (coerceBase h base (.key k) w).2
            (coerceBase h base (.key k) w).1 (keyName k) rest.head? w).2
          (nextBase (coerceBase h base (.key k) w).2
            (coerceBase h base (.key k) w).1 (keyName k) rest.head? w).1 value w
        rw [hrs] at hp
        refine ⟨h3.length, hr0, le_trans hcb (le_trans (nextBase_len _ _ _ _ _) hp.1), ?_⟩
        rw [← hh2]
        simp
  | group ks =>
    simp only [set, alloc] at hset
    split at hset
    · unfold reduceWithArray at hset
      split at hset
      · simp at hset
      · rcases hgo : reduceWithArrayGo (fun h9 b9 v9 => set rest h9 b9 v9 w) rest.head?
            (coerceBase h base (.group ks) w).1 value w
            (coerceBase h base (.group ks) w).2.length ks 0
            ((coerceBase h base (.group ks) w).2
              ++ [.arrC (getElems (coerceBase h base (.group ks) w).2
                  (coerceBase h base (.group ks) w).1)]) with ⟨r, h1⟩
        rw [hgo] at hset
        cases r with
        | error e => simp at hset
        | ok u =>
          have hr0 : r0 = .addr (coerceBase h base (.group ks) w).2.length := by
            have := congrArg Prod.fst hset
            simpa using this.symm
          have hh2 : h2 = h1 := by
            have := congrArg Prod.snd hset
            simpa using this.symm
          subst hh2
          have hpe := reduceWithArrayGo_presExc (fun h9 b9 v9 => set rest h9 b9 v9 w)
            (fun h9 b9 v9 => set_pres rest h9 b9 v9 w) rest.head?
            (coerceBase h base (.group ks) w).1 value w
            (coerceBase h base (.group ks) w).2.length ks 0
            ((coerceBase h base (.group ks) w).2
              ++ [.arrC (getElems (coerceBase h base (.group ks) w).2
                  (coerceBase h base (.group ks) w).1)])
          rw [hgo] at hpe
          refine ⟨(coerceBase h base (.group ks) w).2.length, hr0, hcb, ?_⟩
          have hstep : ((coerceBase h base (.group ks) w).2
              ++ [Cell.arrC (getElems (coerceBase h base (.group ks) w).2
                  (coerceBase h base (.group ks) w).1)]).length ≤ h2.length := hpe.1
          simp only [List.length_append, List.length_singleton] at hstep
          omega
    · rcases hro : reduceWithObject (fun h9 b9 v9 => set rest h9 b9 v9 w)
          ((coerceBase h base (.group ks) w).2 ++ [.objC []])
          (coerceBase h base (.group ks) w).1 ks rest.head? value w
          (coerceBase h base (.group ks) w).2.length with ⟨r, h3⟩
      rw [hro] at hset
      cases r with
      | error e => simp at hset
      | ok u =>
        have hr0 : r0 = .addr h3.length := by
          have := congrArg Prod.fst hset
          simpa using this.symm
        have hh2 := congrArg Prod.snd hset
        simp only at hh2
        have hpe := reduceWithObject_presExc (fun h9 b9 v9 => set rest h9 b9 v9 w)
          (fun h9 b9 v9 => set_pres rest h9 b9 v9 w)
          ((coerceBase h base (.group ks) w).2 ++ [.objC []])
          (coerceBase h base (.group ks) w).1 ks rest.head? value w
          (coerceBase h base (.group ks) w).2.length
        rw [hro] at hpe
        refine ⟨h3.length, hr0, ?_, ?_⟩
        · have hstep : ((coerceBase h base (.group ks) w).2
              ++ [Cell.objC []]).length ≤ h3.length := hpe.1
          simp only [List.length_append, List.length_singleton] at hstep
          omega
        · rw [← hh2]
          simp

/-- C2: frame and freshness of every update with a non-empty path.
First, every successful `set` on a non-empty path returns a freshly
allocated root container (address at or past the old heap end) and leaves
every pre-existing heap cell unchanged, so every sub-structure of the
original is intact and reference-identical to itself.  Second/third, a
single-key level over a mapping (resp. sequence) copies the level with
exactly the addressed field (index) rewritten to the tail's result: every
other field, and every other in-range index, holds the identical
reference - and the exposed tail call says the next level down repeats
this, whatever the tail.  Fourth/fifth, a group level over a mapping
(sequence) leaves every field off the group keys (every index no group key
writes) holding the identical reference.  Sixth, at depth ≥ 2 and for any
tail: the sub-structure at a sibling key under the same parent is
reference-identical to the one in the original. -/
theorem claim2_structural_sharing :
    (∀ (seg : Seg) (rest : List Seg) (h : Heap) (base value : Ref) (w : Bool)
        (r0 : Ref) (h2 : Heap),
      set (seg :: rest) h base value w = (.ok r0, h2) →
      (∃ a0, r0 = .addr a0 ∧ h.length ≤ a0 ∧ a0 < h2.length)
      ∧ (∀ a, a < h.length → h2[a]? = h[a]?))
    ∧ (∀ (h : Heap) (b : Nat) (fs : List (String × Ref)) (k : Key) (rest : List Seg)
        (value r0 : Ref) (w : Bool) (h2 : Heap),
      h[b]? = some (.objC fs) →
      set (.key k :: rest) h (.addr b) value w = (.ok r0, h2) →
      ∃ (nv : Ref) (h3 : Heap),
        set rest (nextBase h (.addr b) (keyName k) rest.head? w).2
            (nextBase h (.addr b) (keyName k) rest.head? w).1 value w = (.ok nv, h3)
        ∧ r0 = .addr h3.length
        ∧ h2[h3.length]? = some (.objC (setField fs (keyName k) nv))
        ∧ ∀ nm, nm ≠ keyName k →
            lookupField (setField fs (keyName k) nv) nm = lookupField fs nm)
    ∧ (∀ (h : Heap) (b : Nat) (es : List Ref) (k : Key) (rest : List Seg)
        (value r0 : Ref) (w : Bool) (h2 : Heap),
      h[b]? = some (.arrC es) →
      set (.key k :: rest) h (.addr b) value w = (.ok r0, h2) →
      ∃ (nv : Ref) (h3 : Heap),
        set rest (nextBase h (.addr b) (keyName k) rest.head? w).2
            (nextBase h (.addr b) (keyName k) rest.head? w).1 value w = (.ok nv, h3)
        ∧ r0 = .addr h3.length
        ∧ h2[h3.length]? = some (.arrC (jsSplice es k nv))
        ∧ ∀ (n : Nat), k = .num n →
            ∀ i, i < es.length → i ≠ n → (jsSplice es k nv)[i]? = es[i]?)
    ∧ (∀ (h : Heap) (b : Nat) (fs : List (String × Ref)) (ks : List Key)
        (rest : List Seg) (value r0 : Ref) (w : Bool) (h2 : Heap),
      h[b]? = some (.objC fs) →
      set (.group ks :: rest) h (.addr b) value w = (.ok r0, h2) →
      ∃ (a0 : Nat) (fs2 : List (String × Ref)),
        r0 = .addr a0 ∧ h2[a0]? = some (.objC fs2)
        ∧ ∀ nm, nm ∉ ks.map keyName → lookupField fs2 nm = lookupField fs nm)
    ∧ (∀ (h : Heap) (b : Nat) (es : List Ref) (ks : List Key) (rest : List Seg)
        (value r0 : Ref) (w : Bool) (h2 : Heap),
      h[b]? = some (.arrC es) →
      set (.group ks :: rest) h (.addr b) value w = (.ok r0, h2) →
      ∃ (es2 : List Ref),
        r0 = .addr h.length ∧ h2[h.length]? = some (.arrC es2) ∧ es.length ≤ es2.length
        ∧ ∀ i, i < es.length → (∀ k ∈ ks, hitsIdx k i = false) → es2[i]? = es[i]?)
    ∧ (∀ (h : Heap) (b c : Nat) (fs gs : List (String × Ref)) (k1 k2 : Key)
        (rest : List Seg) (value r0 : Ref) (w : Bool) (h2 : Heap),
      h[b]? = some (.objC fs) →
      lookupField fs (keyName k1) = .addr c →
      h[c]? = some (.objC gs) →
      set (.key k1 :: .key k2 :: rest) h (.addr b) value w = (.ok r0, h2) →
      ∀ nm, nm ≠ keyName k2 →
        getProp h2 (getProp h2 r0 (keyName k1)) nm = lookupField gs nm
        ∧ getProp h (.addr c) nm = lookupField gs nm) := by
  refine ⟨?_, ?_, ?_, ?_, ?_, ?_⟩
  · intro seg rest h base value w r0 h2 hset
    refine ⟨set_ok_fresh seg rest h base value w r0 h2 hset, ?_⟩
    intro a ha
    have hp := set_pres (seg :: rest) h base value w
    rw [hset] at hp
    exact hp.2 a ha
  · intro h b fs k rest value r0 w h2 hb hset
    obtain ⟨nv, h3, hrs, hr0, hlen, hh2⟩ := set_objkey_frame h b fs k rest value r0 w h2 hb hset
    subst hh2
    exact ⟨nv, h3, hrs, hr0, List.getElem?_concat_length h3 _,
      lookupField_setField_ne fs (keyName k) nv⟩
  · intro h b es k rest value r0 w h2 hb hset
    obtain ⟨nv, h3, hrs, hr0, hlen, hh2⟩ := set_arrkey_frame h b es k rest value r0 w h2 hb hset
    subst hh2
    refine ⟨nv, h3, hrs, hr0, List.getElem?_concat_length h3 _, ?_⟩
    rintro n rfl i hi hin
    exact jsSplice_frame_num es n nv i hi hin
  · intro h b fs ks rest value r0 w h2 hb hset
    exact set_objgroup_frame h b fs ks rest value r0 w h2 hb hset
  · intro h b es ks rest value r0 w h2 hb hset
    exact set_arrgroup_frame h b es ks rest value r0 w h2 hb hset
  · intro h b c fs gs k1 k2 rest value r0 w h2 hb hf hc hset nm hnm
    obtain ⟨nv, h3, hrs, hr0, hlen3, hh2⟩ := set_objkey_frame h b fs k1 (.key k2 :: rest)
      value r0 w h2 hb hset
    have hnb : nextBase h (.addr b) (keyName k1) ((.key k2 :: rest) : List Seg).head? w
        = (.addr c, h) := by
      simp [nextBase, getProp, hb, hf, truthy]
    rw [hnb] at hrs
    dsimp only at hrs
    obtain ⟨nv2, h4, hrs2, hnv, hlen4, hh3⟩ := set_objkey_frame h c gs k2 rest value nv w h3 hc hrs
    subst hr0 hh2 hnv hh3
    constructor
    · have hA : getProp (h4 ++ [Cell.objC (setField gs (keyName k2) nv2)]
          ++ [Cell.objC (setField fs (keyName k1) (.addr h4.length))])
          (.addr (h4 ++ [Cell.objC (setField gs (keyName k2) nv2)]).length) (keyName k1)
          = .addr h4.length := by
        simp only [getProp, List.getElem?_concat_length]
        exact lookupField_setField_self fs (keyName k1) _
      rw [hA]
      have hcell : (h4 ++ [Cell.objC (setField gs (keyName k2) nv2)]
          ++ [Cell.objC (setField fs (keyName k1) (.addr h4.length))])[h4.length]?
          = some (Cell.objC (setField gs (keyName k2) nv2)) := by
        rw [List.getElem?_append_left (by simp)]
        exact List.getElem?_concat_length h4 _
      simp only [getProp, hcell]
      exact lookupField_setField_ne gs (keyName k2) nv2 nm hnm
    · simp [getProp, hc]

/-- Witness for C2: updating `\x7ba: \x7bb: 2, c: <obj>\x7d, s: <arr>\x7d` at
`["a","b"]` keeps the sibling `c` under the same parent by reference, and a
positional group write at index 0 of a three-element sequence keeps indices
1 and 2 by reference. -/
theorem claim2_structural_sharing_witness :
    (getProp
        [Cell.objC [("a", .addr 1), ("s", .addr 2)],
         Cell.objC [("b", .prim (.num 2)), ("c", .addr 2)],
         Cell.arrC [.prim (.num 7)],
         Cell.objC [("b", .prim (.num 9)), ("c", .addr 2)],
         Cell.objC [("a", .addr 3), ("s", .addr 2)]]
        (getProp
          [Cell.objC [("a", .addr 1), ("s", .addr 2)],
           Cell.objC [("b", .prim (.num 2)), ("c", .addr 2)],
           Cell.arrC [.prim (.num 7)],
           Cell.objC [("b", .prim (.num 9)), ("c", .addr 2)],
           Cell.objC [("a", .addr 3), ("s", .addr 2)]]
          (.addr 4) "a") "c"
      = lookupField [("b", .prim (.num 2)), ("c", .addr 2)] "c"
      ∧ getProp
          [Cell.objC [("a", .addr 1), ("s", .addr 2)],
           Cell.objC [("b", .prim (.num 2)), ("c", .addr 2)],
           Cell.arrC [.prim (.num 7)]] (.addr 1) "c"
        = lookupField [("b", .prim (.num 2)), ("c", .addr 2)] "c")
    ∧ (∃ es2, (Ref.addr 2 : Ref) = .addr 2
        ∧ ([Cell.arrC [.prim (.num 1), .prim (.num 2), .prim (.num 3)],
            Cell.arrC [.prim (.num 9)],
            Cell.arrC [.prim (.num 9), .prim (.num 2), .prim (.num 3)]] : Heap)[2]?
          = some (.arrC es2)
        ∧ ([Ref.prim (.num 1), .prim (.num 2), .prim (.num 3)] : List Ref).length
            ≤ es2.length
        ∧ ∀ i, i < ([Ref.prim (.num 1), .prim (.num 2), .prim (.num 3)] : List Ref).length →
            (∀ k ∈ [Key.num 0], hitsIdx k i = false) →
            es2[i]? = [Ref.prim (.num 1), .prim (.num 2), .prim (.num 3)][i]?) :=
  ⟨claim2_structural_sharing.2.2.2.2.2
     [Cell.objC [("a", .addr 1), ("s", .addr 2)],
      Cell.objC [("b", .prim (.num 2)), ("c", .addr 2)],
      Cell.arrC [.prim (.num 7)]] 0 1
     [("a", .addr 1), ("s", .addr 2)] [("b", .prim (.num 2)), ("c", .addr 2)]
     (.str "a") (.str "b") [] (.prim (.num 9)) (.addr 4) false
     [Cell.objC [("a", .addr 1), ("s", .addr 2)],
      Cell.objC [("b", .prim (.num 2)), ("c", .addr 2)],
      Cell.arrC [.prim (.num 7)],
      Cell.objC [("b", .prim (.num 9)), ("c", .addr 2)],
      Cell.objC [("a", .addr 3), ("s", .addr 2)]]
     rfl rfl rfl rfl "c" (by decide),
   claim2_structural_sharing.2.2.2.2.1
     [Cell.arrC [.prim (.num 1), .prim (.num 2), .prim (.num 3)],
      Cell.arrC [.prim (.num 9)]]
     0 [.prim (.num 1), .prim (.num 2), .prim (.num 3)] [.num 0] [] (.addr 1)
     (.addr 2) false
     [Cell.arrC [.prim (.num 1), .prim (.num 2), .prim (.num 3)],
      Cell.arrC [.prim (.num 9)],
      Cell.arrC [.prim (.num 9), .prim (.num 2), .prim (.num 3)]]
     rfl rfl⟩

/-- The depth-2 single-key instance of the frame: both containers on the
path in the result are freshly allocated, while every field off the path
keeps the very same reference as in the original. -/
theorem set_depth2_objkeys (h : Heap) (b c1 : Nat) (fs gs : List (String × Ref))
    (k1 k2 : Key) (value : Ref) (w : Bool)
    (hb : h[b]? = some (.objC fs))
    (hf : lookupField fs (keyName k1) = .addr c1)
    (hc1 : h[c1]? = some (.objC gs)) :
    ∃ (r1 : Nat) (h2 : Heap),
      set [.key k1, .key k2] h (.addr b) value w = (.ok (.addr (r1 + 1)), h2)
      ∧ h.length ≤ r1
      ∧ h2[r1 + 1]? = some (.objC (setField fs (keyName k1) (.addr r1)))
      ∧ h2[r1]? = some (.objC (setField gs (keyName k2) value))
      ∧ (∀ nm, nm ≠ keyName k1 →
          lookupField (setField fs (keyName k1) (.addr r1)) nm = lookupField fs nm)
      ∧ (∀ nm, nm ≠ keyName k2 →
          lookupField (setField gs (keyName k2) value) nm = lookupField gs nm)
      ∧ (∀ a, a < h.length → h2[a]? = h[a]?) := by
  have hcb2 : coerceBase h (.addr c1) (.key k2) w = (.addr c1, h) := by
    simp [coerceBase, isAddr]
  have har2 : isArrayRef h (.addr c1) = false := by simp [isArrayRef, hc1]
  have hgf2 : getFields h (.addr c1) = gs := by simp [getFields, hc1]
  have inner : set [.key k2] h (.addr c1) value w
      = (.ok (.addr (nextBase h (.addr c1) (keyName k2) (([] : List Seg).head?) w).2.length),
         (nextBase h (.addr c1) (keyName k2) (([] : List Seg).head?) w).2
           ++ [.objC (setField gs (keyName k2) value)]) := by
    simp only [set, hcb2, har2, hgf2, alloc]
    simp
  have hcb1 : coerceBase h (.addr b) (.key k1) w = (.addr b, h) := by
    simp [coerceBase, isAddr]
  have har1 : isArrayRef h (.addr b) = false := by simp [isArrayRef, hb]
  have hgf1 : getFields h (.addr b) = fs := by simp [getFields, hb]
  have hnb1 : nextBase h (.addr b) (keyName k1) (([.key k2] : List Seg)).head? w
      = (.addr c1, h) := by
    simp [nextBase, getProp, hb, hf, truthy]
  refine ⟨(nextBase h (.addr c1) (keyName k2) (([] : List Seg).head?) w).2.length,
    (nextBase h (.addr c1) (keyName k2) (([] : List Seg).head?) w).2
      ++ [.objC (setField gs (keyName k2) value)]
      ++ [.objC (setField fs (keyName k1)
          (.addr (nextBase h (.addr c1) (keyName k2) (([] : List Seg).head?) w).2.length))],
    ?_, ?_, ?_, ?_, ?_, ?_, ?_⟩
  · simp only [set, hcb1, har1, hgf1, hnb1, hcb2, har2, hgf2, alloc]
    simp
  · exact nextBase_len h (.addr c1) (keyName k2) (([] : List Seg).head?) w
  · rw [show (nextBase h (.addr c1) (keyName k2) (([] : List Seg).head?) w).2.length + 1
      = ((nextBase h (.addr c1) (keyName k2) (([] : List Seg).head?) w).2
          ++ [Cell.objC (setField gs (keyName k2) value)]).length from by simp]
    exact List.getElem?_concat_length _ _
  · rw [List.getElem?_append_left (by simp)]
    exact List.getElem?_concat_length _ _
  · exact lookupField_setField_ne fs (keyName k1) _
  · exact lookupField_setField_ne gs (keyName k2) value
  · intro a ha
    exact (presFrom_trans (nextBase_pres h (.addr c1) (keyName k2) (([] : List Seg).head?) w)
      (presFrom_trans (presFrom_append _ _) (presFrom_append _ _))).2 a ha

/-- A reference is meaningful in a heap: primitives always, addresses when
live. -/
def refWF (h : Heap) (r : Ref) : Prop :=
  match r with
  | .addr a => a < h.length
  | .prim _ => True

theorem isArrayRef_pres {h h2 : Heap} {r : Ref} (p : presFrom h h2) (hr : refWF h r) :
    isArrayRef h2 r = isArrayRef h r := by
  cases r with
  | prim q => rfl
  | addr a => simp [isArrayRef, p.2 a hr]

/-- The complete classification of messages the setter can fail with: the
explicit shape-mismatch throw, or the TypeError raised by `values[key]`
when the values collection is null or undefined. -/
def knownErr (e : String) : Prop :=
  e = shapeErr ∨ e = typeErr .null ∨ e = typeErr Prim.undef

theorem getPropE_err {h : Heap} {r : Ref} {name e : String}
    (hx : getPropE h r name = .error e) :
    e = typeErr .null ∨ e = typeErr Prim.undef := by
  cases r with
  | addr a => cases hx
  | prim p =>
    cases p with
    | null => cases hx; exact Or.inl rfl
    | undef => cases hx; exact Or.inr rfl
    | num n => cases hx
    | str s => cases hx
    | bool b => cases hx

theorem reduceWithArrayGo_err (setTail : Heap → Ref → Ref → Except String Ref × Heap)
    (Hst : ∀ h b v e, (setTail h b v).1 = .error e → knownErr e)
    (nk : Option Seg) (base vals : Ref) (w : Bool) (accA : Nat) :
    ∀ (ks : List Key) (idx : Nat) (h : Heap) (e : String),
      (reduceWithArrayGo setTail nk base vals w accA ks idx h).1 = .error e →
      knownErr e := by
  intro ks
  induction ks with
  | nil => intro idx h e he; cases he
  | cons k kt ih =>
    intro idx h e he
    simp only [reduceWithArrayGo] at he
    rcases hst : setTail (nextBase h base (keyName k) nk w).2
        (nextBase h base (keyName k) nk w).1
        (getProp (nextBase h base (keyName k) nk w).2 vals (toString idx)) with ⟨r, h2⟩
    rw [hst] at he
    cases r with
    | error e2 =>
      cases he
      have h5 := Hst (nextBase h base (keyName k) nk w).2
        (nextBase h base (keyName k) nk w).1
        (getProp (nextBase h base (keyName k) nk w).2 vals (toString idx)) e
      rw [hst] at h5
      exact h5 rfl
    | ok nv => exact ih (idx + 1) _ e he

theorem reduceWithObjectGo_err (setTail : Heap → Ref → Ref → Except String Ref × Heap)
    (Hst : ∀ h b v e, (setTail h b v).1 = .error e → knownErr e)
    (nk : Option Seg) (base vals : Ref) (pm w : Bool) (accA : Nat) :
    ∀ (ks : List Key) (idx : Nat) (h : Heap) (e : String),
      (reduceWithObjectGo setTail nk base vals pm w accA ks idx h).1 = .error e →
      knownErr e := by
  intro ks
  induction ks with
  | nil => intro idx h e he; cases he
  | cons k kt ih =>
    intro idx h e he
    simp only [reduceWithObjectGo] at he
    rcases hvi : (if pm = true then
          getPropE (nextBase h base (keyName k) nk w).2 vals (toString idx)
        else getPropE (nextBase h base (keyName k) nk w).2 vals (keyName k))
      with e0 | vi
    · rw [hvi] at he
      cases he
      by_cases hpm : pm = true
      · rw [if_pos hpm] at hvi
        exact Or.inr (getPropE_err hvi)
      · rw [if_neg hpm] at hvi
        exact Or.inr (getPropE_err hvi)
    · rw [hvi] at he
      dsimp only at he
      rcases hst : setTail (nextBase h base (keyName k) nk w).2
          (nextBase h base (keyName k) nk w).1 vi with ⟨r, h2⟩
      rw [hst] at he
      cases r with
      | error e2 =>
        cases he
        have h5 := Hst (nextBase h base (keyName k) nk w).2
          (nextBase h base (keyName k) nk w).1 vi e
        rw [hst] at h5
        exact h5 rfl
      | ok nv => exact ih (idx + 1) _ e he

theorem reduceWithArray_err (setTail : Heap → Ref → Ref → Except String Ref × Heap)
    (Hst : ∀ h b v e, (setTail h b v).1 = .error e → knownErr e)
    (h : Heap) (base : Ref) (ks : List Key) (nk : Option Seg) (vals : Ref)
    (w : Bool) (accA : Nat) (e : String)
    (he : (reduceWithArray setTail h base ks nk vals w accA).1 = .error e) :
    knownErr e := by
  unfold reduceWithArray at he
  split at he
  · cases he; exact Or.inl rfl
  · rcases hgo : reduceWithArrayGo setTail nk base vals w accA ks 0 h with ⟨r, h1⟩
    rw [hgo] at he
    cases r with
    | error e2 =>
      cases he
      have := reduceWithArrayGo_err setTail Hst nk base vals w accA ks 0 h e
      rw [hgo] at this
      exact this rfl
    | ok u => cases he

/-- Every failure of the recursive setter is the shape-mismatch throw or a
TypeError from reading a property of a null/undefined values collection. -/
theorem set_err : ∀ (path : List Seg) (h : Heap) (base value : Ref) (w : Bool) (e : String),
    (set path h base value w).1 = .error e → knownErr e := by
  intro path
  induction path with
  | nil => intro h b v w e he; cases he
  | cons seg rest ih =>
    intro h b v w e he
    cases seg with
    | group ks =>
      simp only [set, alloc] at he
      split at he
      · exact reduceWithArray_err _ (fun h9 b9 v9 e9 => ih h9 b9 v9 w e9) _ _ _ _ _ _ _ e he
      · rcases hro : reduceWithObject (fun h9 b9 v9 => set rest h9 b9 v9 w)
            ((coerceBase h b (.group ks) w).2 ++ [.objC []])
            (coerceBase h b (.group ks) w).1 ks rest.head? v w
            (coerceBase h b (.group ks) w).2.length with ⟨r, h3⟩
        rw [hro] at he
        cases r with
        | error e2 =>
          cases he
          have := reduceWithObjectGo_err (fun h9 b9 v9 => set rest h9 b9 v9 w)
            (fun h9 b9 v9 e9 => ih h9 b9 v9 w e9) rest.head?
            (coerceBase h b (.group ks) w).1 v
            (isArrayRef ((coerceBase h b (.group ks) w).2 ++ [.objC []]) v) w
            (coerceBase h b (.group ks) w).2.length ks 0
            ((coerceBase h b (.group ks) w).2 ++ [.objC []]) e
          rw [show reduceWithObjectGo (fun h9 b9 v9 => set rest h9 b9 v9 w) rest.head?
              (coerceBase h b (.group ks) w).1 v
              (isArrayRef ((coerceBase h b (.group ks) w).2 ++ [.objC []]) v) w
              (coerceBase h b (.group ks) w).2.length ks 0
              ((coerceBase h b (.group ks) w).2 ++ [.objC []])
            = (Except.error e, h3) from hro] at this
          exact this rfl
        | ok u => cases he
    | key k =>
      simp only [set, alloc] at he
      split at he
      · rcases hrs : set rest (nextBase (coerceBase h b (.key k) w).2
            (coerceBase h b (.key k) w).1 (keyName k) rest.head? w).2
            (nextBase (coerceBase h b (.key k) w).2
              (coerceBase h b (.key k) w).1 (keyName k) rest.head? w).1 v w with ⟨r, h3⟩
        rw [hrs] at he
        cases r with
        | error e2 =>
          cases he
          have h5 := ih (nextBase (coerceBase h b (.key k) w).2
              (coerceBase h b (.key k) w).1 (keyName k) rest.head? w).2
            (nextBase (coerceBase h b (.key k) w).2
              (coerceBase h b (.key k) w).1 (keyName k) rest.head? w).1 v w e
          rw [hrs] at h5
          exact h5 rfl
        | ok nv => cases he
      · rcases hrs : set rest (nextBase (coerceBase h b (.key k) w).2
            (coerceBase h b (.key k) w).1 (keyName k) rest.head? w).2
            (nextBase (coerceBase h b (.key k) w).2
              (coerceBase h b (.key k) w).1 (keyName k) rest.head? w).1 v w with ⟨r, h3⟩
        rw [hrs] at he
        cases r with
        | error e2 =>
          cases he
          have h5 := ih (nextBase (coerceBase h b (.key k) w).2
              (coerceBase h b (.key k) w).1 (keyName k) rest.head? w).2
            (nextBase (coerceBase h b (.key k) w).2
              (coerceBase h b (.key k) w).1 (keyName k) rest.head? w).1 v w e
          rw [hrs] at h5
          exact h5 rfl
        | ok nv => cases he

theorem safeSet_err (h : Heap) (base : Ref) (pin : PathInput) (value : Ref)
    (opts : Options) (e : String)
    (he : (safeSet h base pin value opts).1 = .error e) : knownErr e := by
  unfold safeSet at he
  cases hnp : normalizePath pin with
  | strP s => rw [hnp] at he; cases he
  | listP l =>
    rw [hnp] at he
    dsimp only at he
    split at he
    · cases he
    · split at he
      · cases he
      · exact set_err l h base value opts.withArrays e he
  | otherP r => rw [hnp] at he; cases he

theorem reduceWithArrayGo_nil_rest_ok (nk : Option Seg) (base vals : Ref) (w : Bool)
    (accA : Nat) :
    ∀ (ks : List Key) (idx : Nat) (h : Heap), ∃ h2,
      reduceWithArrayGo (fun h9 _b9 v9 => ((Except.ok v9 : Except String Ref), h9))
          nk base vals w accA ks idx h
        = (.ok (), h2) := by
  intro ks
  induction ks with
  | nil => exact fun idx h => ⟨h, rfl⟩
  | cons k kt ih =>
    intro idx h
    simp only [reduceWithArrayGo]
    exact ih (idx + 1) _

/-- A group segment over a non-array level with a `null` or `undefined`
values collection fails with the host TypeError of the keyed `values[key]`
read, not with the shape-mismatch throw. -/
theorem reduceWithObjectGo_typeError
    (setTail : Heap → Ref → Ref → Except String Ref × Heap)
    (nk : Option Seg) (base : Ref) (w : Bool) (accA : Nat)
    (k : Key) (ks : List Key) (idx : Nat) (h : Heap) (p : Prim)
    (hp : p = .null ∨ p = Prim.undef) :
    (reduceWithObjectGo setTail nk base (.prim p) false w accA (k :: ks) idx h).1
      = .error (typeErr p) := by
  rcases hp with rfl | rfl <;>
  · simp only [reduceWithObjectGo]
    rcases nextBase h base (keyName k) nk w with ⟨nb, h1⟩
    rfl

/-- C4 counterexample to "the only failure is the shape-mismatch error":
updating the empty mapping along the path `[["x"]]` with the values
collection `null` fails, synchronously through the entry point, with a
TypeError raised by the `values[key]` read - a different message than the
shape-mismatch throw. -/
theorem claim4_counterexample :
    (safeSet [Cell.objC []] (.addr 0) (.listP [.group [.str "x"]]) (.prim .null)
        {}).1 = .error (typeErr .null)
    ∧ typeErr .null ≠ shapeErr := by
  exact ⟨rfl, by decide⟩

/-- C4 (amended): every failure the code can raise carries one of two
messages - the explicit shape-mismatch throw, or the TypeError of the
`values[key]` read when a group over a non-array level meets a `null` or
`undefined` values collection; it surfaces synchronously through the entry
point; on the error path nothing is partially applied (every pre-existing
cell of the caller's heap is unchanged); for a terminal group segment over
an array level the shape-mismatch failure is raised exactly when the
paired values collection is not an array; and a terminal group over a
mapping level with `null`/`undefined` values raises the TypeError. -/
theorem claim4_amended (h : Heap) (base : Ref) (pin : PathInput) (value : Ref)
    (opts : Options) :
    (∀ e, (safeSet h base pin value opts).1 = .error e → knownErr e)
    ∧ (∀ e, (safeSet h base pin value opts).1 = .error e →
        ∀ a, a < h.length → ((safeSet h base pin value opts).2)[a]? = h[a]?)
    ∧ (∀ (b : Nat) (es : List Ref) (ks : List Key) (v : Ref) (w : Bool),
        h[b]? = some (.arrC es) → refWF h v →
        ((∃ e, (set [.group ks] h (.addr b) v w).1 = .error e)
          ↔ isArrayRef h v = false))
    ∧ (∀ (b : Nat) (fs : List (String × Ref)) (k : Key) (ks : List Key)
          (w : Bool) (p : Prim),
        h[b]? = some (.objC fs) → (p = .null ∨ p = Prim.undef) →
        (set [.group (k :: ks)] h (.addr b) (.prim p) w).1
          = .error (typeErr p)) := by
  refine ⟨fun e he => safeSet_err h base pin value opts e he,
    fun e _ a ha => (safeSet_pres h base pin value opts).2 a ha, ?_, ?_⟩
  · intro b es ks v w hb hv
    have hcb : coerceBase h (.addr b) (.group ks) w = (.addr b, h) := by
      simp [coerceBase, isAddr]
    have har : isArrayRef h (.addr b) = true := by simp [isArrayRef, hb]
    have hAv : isArrayRef (h ++ [.arrC (getElems h (.addr b))]) v = isArrayRef h v :=
      isArrayRef_pres (presFrom_append h _) hv
    simp only [set, hcb, har, if_true, alloc]
    unfold reduceWithArray
    rw [hAv]
    constructor
    · rintro ⟨e, he⟩
      by_contra hne
      have htrue : isArrayRef h v = true := by
        cases hx : isArrayRef h v
        · exact absurd hx hne
        · rfl
      rw [htrue] at he
      simp only [Bool.not_true, Bool.false_eq_true, if_false] at he
      rcases reduceWithArrayGo_nil_rest_ok (([] : List Seg)).head? (.addr b) v w h.length ks 0
          (h ++ [.arrC (getElems h (.addr b))]) with ⟨h2, hgo⟩
      rw [hgo] at he
      cases he
    · intro hfalse
      rw [hfalse]
      exact ⟨shapeErr, rfl⟩
  · intro b fs k ks w p hb hp
    have hcb : coerceBase h (.addr b) (.group (k :: ks)) w = (.addr b, h) := by
      simp [coerceBase, isAddr]
    have hnar : isArrayRef h (.addr b) = false := by simp [isArrayRef, hb]
    simp only [set, hcb, hnar, Bool.false_eq_true, if_false, alloc]
    unfold reduceWithObject
    have hgo := reduceWithObjectGo_typeError
      (fun h9 b v => ((Except.ok v : Except String Ref), h9))
      (([] : List Seg)).head? (.addr b) w
      h.length k ks 0 (h ++ [.objC []]) p hp
    rcases hx : reduceWithObjectGo (fun h9 b v => ((Except.ok v : Except String Ref), h9))
        (([] : List Seg)).head? (.addr b) (.prim p)
        (isArrayRef (h ++ [.objC []]) (.prim p)) w h.length (k :: ks) 0
        (h ++ [.objC []]) with ⟨r, h3⟩
    have hx2 : reduceWithObjectGo (fun h9 b v => ((Except.ok v : Except String Ref), h9))
        (([] : List Seg)).head? (.addr b) (.prim p) false w h.length (k :: ks) 0
        (h ++ [.objC []]) = (r, h3) := hx
    rw [hx2] at hgo
    dsimp only at hgo
    subst hgo
    rw [hx]

/-- Witness for C4 (amended): a terminal group over a mapping with `null`
values raises the TypeError, and a group over an array level with a
primitive values collection raises the shape failure (per the iff). -/
theorem claim4_amended_witness :
    (set [.group [.str "x"]] [Cell.objC []] (.addr 0) (.prim .null) false).1
      = .error (typeErr .null)
    ∧ ∃ e, (set [.group [.num 0]] [Cell.arrC [.prim (.num 1)]] (.addr 0)
        (.prim (.num 5)) false).1 = .error e :=
  ⟨(claim4_amended [Cell.objC []] (.addr 0) (.listP [.group [.str "x"]])
      (.prim .null) {}).2.2.2 0 [] (.str "x") [] false .null rfl (Or.inl rfl),
   ((claim4_amended [Cell.arrC [.prim (.num 1)]] (.addr 0)
      (.listP [.group [.num 0]]) (.prim (.num 5)) {}).2.2.1 0 [.prim (.num 1)]
      [.num 0] (.prim (.num 5)) false rfl trivial).mpr rfl⟩

/-! ### Termination: a fuel-indexed mirror of the recursion succeeds with
any fuel exceeding the path length, because every recursive call is on the
tail of the current path. -/

def reduceWithArrayGoF (setTailF : Heap → Ref → Ref → Option (Except String Ref × Heap))
    (nextKey : Option Seg) (base vals : Ref) (withArrays : Bool) (accA : Nat) :
    List Key → Nat → Heap → Option (Except String Unit × Heap)
  | [], _, h => some (.ok (), h)
  | k :: kt, idx, h =>
    let (nb, h1) := nextBase h base (keyName k) nextKey withArrays
    let vi := getProp h1 vals (toString idx)
    match setTailF h1 nb vi with
    | none => none
    | some (.error e, h2) => some (.error e, h2)
    | some (.ok nv, h2) =>
      let h3 := writeCell h2 accA (.arrC (arrWrite (getElems h2 (.addr accA)) k nv))
      reduceWithArrayGoF setTailF nextKey base vals withArrays accA kt (idx + 1) h3

def reduceWithArrayF (setTailF : Heap → Ref → Ref → Option (Except String Ref × Heap))
    (h : Heap) (base : Ref) (ks : List Key) (nextKey : Option Seg) (vals : Ref)
    (withArrays : Bool) (accA : Nat) : Option (Except String Ref × Heap) :=
  if !(isArrayRef h vals) then some (.error shapeErr, h)
  else
    match reduceWithArrayGoF setTailF nextKey base vals withArrays accA ks 0 h with
    | none => none
    | some (.ok _, h1) => some (.ok (.addr accA), h1)
    | some (.error e, h1) => some (.error e, h1)

def reduceWithObjectGoF (setTailF : Heap → Ref → Ref → Option (Except String Ref × Heap))
    (nextKey : Option Seg) (base vals : Ref) (posMode withArrays : Bool) (accA : Nat) :
    List Key → Nat → Heap → Option (Except String Unit × Heap)
  | [], _, h => some (.ok (), h)
  | k :: kt, idx, h =>
    let (nb, h1) := nextBase h base (keyName k) nextKey withArrays
    match
      (if posMode then getPropE h1 vals (toString idx)
       else getPropE h1 vals (keyName k)) with
    | .error e => some (.error e, h1)
    | .ok vi =>
      match setTailF h1 nb vi with
      | none => none
      | some (.error e, h2) => some (.error e, h2)
      | some (.ok nv, h2) =>
        let h3 := writeCell h2 accA (.objC (setField (getFields h2 (.addr accA)) (keyName k) nv))
        reduceWithObjectGoF setTailF nextKey base vals posMode withArrays accA kt (idx + 1) h3

def reduceWithObjectF (setTailF : Heap → Ref → Ref → Option (Except String Ref × Heap))
    (h : Heap) (base : Ref) (ks : List Key) (nextKey : Option Seg) (vals : Ref)
    (withArrays : Bool) (accA : Nat) : Option (Except String Unit × Heap) :=
  reduceWithObjectGoF setTailF nextKey base vals (isArrayRef h vals) withArrays accA ks 0 h

/-- The recursive setter with an explicit recursion-depth budget, one unit
spent per recursive call (which is always on the tail of the path). -/
def setF : Nat → List Seg → Heap → Ref → Ref → Bool → Option (Except String Ref × Heap)
  | 0, _, _, _, _, _ => none
  | _ + 1, [], h, _, value, _ => some (.ok value, h)
  | fuel + 1, seg :: rest, h, base, value, withArrays =>
    let cbh := coerceBase h base seg withArrays
    let cb := cbh.1
    let h1 := cbh.2
    match seg with
    | .group ks =>
      if isArrayRef h1 cb then
        let (accA, h2) := alloc h1 (.arrC (getElems h1 cb))
        reduceWithArrayF (fun h9 b v => setF fuel rest h9 b v withArrays)
          h2 cb ks rest.head? value withArrays accA
      else
        let fs := getFields h1 cb
        let (accA, h2) := alloc h1 (.objC [])
        match reduceWithObjectF (fun h9 b v => setF fuel rest h9 b v withArrays)
            h2 cb ks rest.head? value withArrays accA with
        | none => none
        | some (.ok _, h3) =>
          let (r, h4) := alloc h3 (.objC (mergeFields fs (getFields h3 (.addr accA))))
          some (.ok (.addr r), h4)
        | some (.error e, h3) => some (.error e, h3)
    | .key k =>
      if isArrayRef h1 cb then
        let es := getElems h1 cb
        let (nb, h2) := nextBase h1 cb (keyName k) rest.head? withArrays
        match setF fuel rest h2 nb value withArrays with
        | none => none
        | some (.ok nv, h3) =>
          let (r, h4) := alloc h3 (.arrC (jsSplice es k nv))
          some (.ok (.addr r), h4)
        | some (.error e, h3) => some (.error e, h3)
      else
        let fs := getFields h1 cb
        let (nb, h2) := nextBase h1 cb (keyName k) rest.head? withArrays
        match setF fuel rest h2 nb value withArrays with
        | none => none
        | some (.ok nv, h3) =>
          let (r, h4) := alloc h3 (.objC (setField fs (keyName k) nv))
          some (.ok (.addr r), h4)
        | some (.error e, h3) => some (.error e, h3)

/-- The equality pre-check with an explicit recursion-depth budget. -/
def recursiveEqualF : Nat → Heap → Ref → List Seg → Ref → Option (Ref → Ref → Bool) →
    Option Bool
  | 0, _, _, _, _, _ => none
  | fuel + 1, h, base, path, value, eqF =>
    match base with
    | .addr _ =>
      match path with
      | [] =>
        some (match eqF with
          | some f => f (getProp h base "undefined") value
          | none => getProp h base "undefined" = value)
      | [k] =>
        some (match eqF with
          | some f => f (getProp h base (segName k)) value
          | none => getProp h base (segName k) = value)
      | k :: rest => recursiveEqualF fuel h (getProp h base (segName k)) rest value eqF
    | _ => some false

theorem reduceWithArrayGoF_adequate
    (setTailF : Heap → Ref → Ref → Option (Except String Ref × Heap))
    (setTail : Heap → Ref → Ref → Except String Ref × Heap)
    (Hst : ∀ h b v, setTailF h b v = some (setTail h b v))
    (nk : Option Seg) (base vals : Ref) (w : Bool) (accA : Nat) :
    ∀ (ks : List Key) (idx : Nat) (h : Heap),
      reduceWithArrayGoF setTailF nk base vals w accA ks idx h
        = some (reduceWithArrayGo setTail nk base vals w accA ks idx h) := by
  intro ks
  induction ks with
  | nil => intro idx h; rfl
  | cons k kt ih =>
    intro idx h
    simp only [reduceWithArrayGoF, reduceWithArrayGo, Hst]
    rcases setTail (nextBase h base (keyName k) nk w).2 (nextBase h base (keyName k) nk w).1
        (getProp (nextBase h base (keyName k) nk w).2 vals (toString idx)) with ⟨r, h2⟩
    cases r with
    | error e => rfl
    | ok nv => exact ih (idx + 1) _

theorem reduceWithObjectGoF_adequate
    (setTailF : Heap → Ref → Ref → Option (Except String Ref × Heap))
    (setTail : Heap → Ref → Ref → Except String Ref × Heap)
    (Hst : ∀ h b v, setTailF h b v = some (setTail h b v))
    (nk : Option Seg) (base vals : Ref) (pm w : Bool) (accA : Nat) :
    ∀ (ks : List Key) (idx : Nat) (h : Heap),
      reduceWithObjectGoF setTailF nk base vals pm w accA ks idx h
        = some (reduceWithObjectGo setTail nk base vals pm w accA ks idx h) := by
  intro ks
  induction ks with
  | nil => intro idx h; rfl
  | cons k kt ih =>
    intro idx h
    simp only [reduceWithObjectGoF, reduceWithObjectGo, Hst]
    rcases hvi : (if pm = true then
          getPropE (nextBase h base (keyName k) nk w).2 vals (toString idx)
        else getPropE (nextBase h base (keyName k) nk w).2 vals (keyName k))
      with e0 | vi
    · rfl
    · dsimp only
      rcases setTail (nextBase h base (keyName k) nk w).2
          (nextBase h base (keyName k) nk w).1 vi with ⟨r, h2⟩
      cases r with
      | error e => rfl
      | ok nv => exact ih (idx + 1) _

theorem setF_adequate :
    ∀ (path : List Seg) (fuel : Nat), path.length < fuel →
    ∀ (h : Heap) (base value : Ref) (w : Bool),
      setF fuel path h base value w = some (set path h base value w) := by
  intro path
  induction path with
  | nil =>
    intro fuel hf h base value w
    cases fuel with
    | zero => cases hf
    | succ f => rfl
  | cons seg rest ih =>
    intro fuel hf h base value w
    cases fuel with
    | zero => cases hf
    | succ f =>
      have hrest : rest.length < f := by simpa using hf
      have Hst : ∀ h9 b v, setF f rest h9 b v w = some (set rest h9 b v w) :=
        fun h9 b v => ih f hrest h9 b v w
      cases seg with
      | group ks =>
        simp only [setF, set]
        split
        · unfold reduceWithArrayF reduceWithArray
          split
          · rfl
          · rw [reduceWithArrayGoF_adequate _ _ Hst]
            rcases hx : reduceWithArrayGo (fun h9 b v => set rest h9 b v w) rest.head?
                (coerceBase h base (.group ks) w).1 value w
                (alloc (coerceBase h base (.group ks) w).2
                  (.arrC (getElems (coerceBase h base (.group ks) w).2
                    (coerceBase h base (.group ks) w).1))).1 ks 0
                (alloc (coerceBase h base (.group ks) w).2
                  (.arrC (getElems (coerceBase h base (.group ks) w).2
                    (coerceBase h base (.group ks) w).1))).2 with ⟨r, h2⟩
            cases r <;> rfl
        · unfold reduceWithObjectF reduceWithObject
          rw [reduceWithObjectGoF_adequate _ _ Hst]
          rcases hx : reduceWithObjectGo (fun h9 b v => set rest h9 b v w) rest.head?
              (coerceBase h base (.group ks) w).1 value
              (isArrayRef (alloc (coerceBase h base (.group ks) w).2 (.objC [])).2 value) w
              (alloc (coerceBase h base (.group ks) w).2 (.objC [])).1 ks 0
              (alloc (coerceBase h base (.group ks) w).2 (.objC [])).2 with ⟨r, h2⟩
          cases r <;> rfl
      | key k =>
        simp only [setF, set, Hst]
        split
        · rcases hx : set rest (nextBase (coerceBase h base (.key k) w).2
              (coerceBase h base (.key k) w).1 (keyName k) rest.head? w).2
              (nextBase (coerceBase h base (.key k) w).2
                (coerceBase h base (.key k) w).1 (keyName k) rest.head? w).1 value w
            with ⟨r, h2⟩
          cases r <;> rfl
        · rcases hx : set rest (nextBase (coerceBase h base (.key k) w).2
              (coerceBase h base (.key k) w).1 (keyName k) rest.head? w).2
              (nextBase (coerceBase h base (.key k) w).2
                (coerceBase h base (.key k) w).1 (keyName k) rest.head? w).1 value w
            with ⟨r, h2⟩
          cases r <;> rfl

theorem recursiveEqualF_adequate :
    ∀ (path : List Seg) (fuel : Nat), path.length < fuel →
    ∀ (h : Heap) (base value : Ref) (eqF : Option (Ref → Ref → Bool)),
      recursiveEqualF fuel h base path value eqF
        = some (recursiveEqual h base path value eqF) := by
  intro path
  induction path with
  | nil =>
    intro fuel hf h base value eqF
    cases fuel with
    | zero => cases hf
    | succ f => cases base <;> rfl
  | cons k rest ih =>
    intro fuel hf h base value eqF
    cases fuel with
    | zero => cases hf
    | succ f =>
      have hrest : rest.length < f := by simpa using hf
      cases base with
      | prim p => rfl
      | addr a =>
        cases rest with
        | nil => rfl
        | cons k2 rest2 =>
          simp only [recursiveEqualF, recursiveEqual]
          exact ih f hrest h _ value eqF

/-- C8: the recursive setter terminates on every finite path, with
recursion depth bounded by the path length: a fuel-indexed mirror of `set`
that spends one unit per recursive call (each such call, including the ones
made through the batch reducers, being on the tail of the current path)
already succeeds with any budget exceeding the path length, and agrees with
`set`; likewise for the equality pre-check. -/
theorem claim8_termination :
    (∀ (path : List Seg) (fuel : Nat), path.length < fuel →
      ∀ (h : Heap) (base value : Ref) (w : Bool),
        setF fuel path h base value w = some (set path h base value w))
    ∧ (∀ (path : List Seg) (fuel : Nat), path.length < fuel →
      ∀ (h : Heap) (base value : Ref) (eqF : Option (Ref → Ref → Bool)),
        recursiveEqualF fuel h base path value eqF
          = some (recursiveEqual h base path value eqF)) :=
  ⟨setF_adequate, recursiveEqualF_adequate⟩

/-- Witness for C8: a depth-2 update and a depth-2 pre-check both complete
within budget path length + 1. -/
theorem claim8_termination_witness :
    setF 3 [.key (.str "a"), .key (.str "b")] [Cell.objC []] (.addr 0) (.prim (.num 1)) false
      = some (set [.key (.str "a"), .key (.str "b")] [Cell.objC []] (.addr 0)
          (.prim (.num 1)) false)
    ∧ recursiveEqualF 3 [Cell.objC []] (.addr 0) [.key (.str "a"), .key (.str "b")]
        (.prim (.num 1)) none
      = some (recursiveEqual [Cell.objC []] (.addr 0) [.key (.str "a"), .key (.str "b")]
          (.prim (.num 1)) none) :=
  ⟨claim8_termination.1 [.key (.str "a"), .key (.str "b")] 3 (by decide)
     [Cell.objC []] (.addr 0) (.prim (.num 1)) false,
   claim8_termination.2 [.key (.str "a"), .key (.str "b")] 3 (by decide)
     [Cell.objC []] (.addr 0) (.prim (.num 1)) none⟩
